import Mathlib

/-!
Verification of the LabTA backend (an automated teaching assistant that
grades programming submissions in a sandbox, classifies failures and
produces escalating hints).

The Python sources under `backend/` are shallowly embedded below:

* `backend/sandbox.py`  — `generate_diff`, `run_python`, `run_investigation`
* `backend/agent.py`    — `analyze_error_logs`, `create_source_diff`
* `backend/diagnostics.py` — `get_first_error` and its per-language parsers
* `backend/app.py`      — the override/normalisation steps of `submit_code`,
  the session update, `get_draft`, `save_draft`

Python strings are modelled as `List Char` (`Str`).  External libraries
(the Docker container runner, `re.search` inside the priority analyzer,
`difflib.ndiff` inside `generate_diff`, the LLM client) are modelled as
function parameters; everything that the claims depend on is embedded
concretely.  `difflib.unified_diff` (used by `create_source_diff`) is
embedded concretely as well, following difflib's documented algorithm
(SequenceMatcher longest matching blocks without the autojunk heuristic,
opcodes, grouping with `n` lines of context, unified format).
-/

namespace LabTA

/-- Python strings are modelled as lists of characters. -/
abbrev Str := List Char

/-- Shorthand turning a Lean string literal into the model type. -/
def strL (s : String) : Str := s.toList

/-- The whitespace predicate of Python's `str.strip()` / `str.isspace()`:
ASCII whitespace, the `\x1c`-`\x1f` separators, NEL, NBSP and the Unicode
space characters. -/
def pyIsSpace (c : Char) : Bool :=
  c = ' ' ∨ (9 ≤ c.toNat ∧ c.toNat ≤ 13) ∨ (28 ≤ c.toNat ∧ c.toNat ≤ 31) ∨
  c.toNat = 133 ∨ c.toNat = 160 ∨ c.toNat = 5760 ∨
  (8192 ≤ c.toNat ∧ c.toNat ≤ 8202) ∨ c.toNat = 8232 ∨ c.toNat = 8233 ∨
  c.toNat = 8239 ∨ c.toNat = 8287 ∨ c.toNat = 12288

/-- Python `str.strip()`: drop leading and trailing whitespace of the whole
string. -/
def pyStrip (s : Str) : Str :=
  ((s.dropWhile pyIsSpace).reverse.dropWhile pyIsSpace).reverse

/-- Line-break characters recognised by Python `str.splitlines()`
(`\r\n` is handled as a unit by `splitLines` below). -/
def isLineBreak (c : Char) : Bool :=
  c = '\n' ∨ c = '\r' ∨ c.toNat = 11 ∨ c.toNat = 12 ∨
  (28 ≤ c.toNat ∧ c.toNat ≤ 30) ∨ c.toNat = 133 ∨
  c.toNat = 8232 ∨ c.toNat = 8233

/-- Python `str.splitlines()` (without `keepends`): split at line breaks,
treating `\r\n` as a single break; a trailing break does not create an
extra empty line, and the empty string has no lines. -/
def splitLines : Str → List Str
  | [] => []
  | c :: rest =>
    if c = '\r' then
      match rest with
      | '\n' :: rest2 => [] :: splitLines rest2
      | [] => [[]]
      | c2 :: rest2 => [] :: splitLines (c2 :: rest2)
    else if isLineBreak c then [] :: splitLines rest
    else
      match splitLines rest with
      | [] => [[c]]
      | l :: ls => (c :: l) :: ls

/-- Python `"\n".join(lines)`. -/
def joinLines : List Str → Str
  | [] => []
  | [l] => l
  | l :: ls => l ++ '\n' :: joinLines ls

/-- Python `s.split('\n')`: split at `'\n'` only, keeping empty pieces
(so `"".split('\n') == [""]` and a trailing newline yields a final empty
piece). -/
def splitNl : Str → List Str
  | [] => [[]]
  | '\n' :: rest => [] :: splitNl rest
  | c :: rest =>
    match splitNl rest with
    | [] => [[c]]
    | l :: ls => (c :: l) :: ls

/-- Python `needle in haystack` (substring containment). -/
def strContains (haystack needle : Str) : Bool :=
  needle.isPrefixOf haystack ||
    match haystack with
    | [] => false
    | _ :: t => strContains t needle

/-- `sliceIdx l i j` is Python's `l[i:j]` for `0 ≤ i ≤ j`. -/
def sliceIdx (l : List α) (i j : Nat) : List α :=
  (l.drop i).take (j - i)

/-- ASCII digit test (the `\d` of the embedded patterns). -/
def isDigitCh (c : Char) : Bool := 48 ≤ c.toNat ∧ c.toNat ≤ 57

/-!
## Output comparison (`backend/sandbox.py`)

`run_investigation` compares `output.strip()` with `case["output"].strip()`
(lines 179, 198 and 221 of `sandbox.py`); `generate_diff` (lines 56-67)
renders an ndiff-style report of the two stripped outputs.
-/

/-- The output comparison performed by `run_investigation`
(`sandbox.py:221`): the actual and the expected output are equal after
stripping leading/trailing whitespace of the whole string. -/
def compareOutputs (expected actual : Str) : Bool :=
  pyStrip actual == pyStrip expected

/-- Modelled from the spec: the comparison described by the specification,
which strips leading/trailing whitespace of every individual line
("every case output is compared after stripping leading/trailing
whitespace line-by-line").  Used only to compare against the code's
`compareOutputs`. -/
def specLineByLineEqual (expected actual : Str) : Bool :=
  (splitLines expected).map pyStrip == (splitLines actual).map pyStrip

/-- `generate_diff` (`sandbox.py:56-67`).  `difflib.ndiff` is an external
library; it is passed in as `ndiff`, and the report assembly loop is
embedded: lines starting `"- "` become `EXPECTED`, `"+ "` become `ACTUAL`,
`"? "` are dropped, anything else becomes `MATCH`. -/
def generate_diff (ndiff : List Str → List Str → List Str)
    (expected actual : Str) : Str :=
  let expected_lines := splitLines (pyStrip expected)
  let actual_lines := splitLines (pyStrip actual)
  let diff := ndiff expected_lines actual_lines
  let report := diff.filterMap (fun line =>
    if (strL "- ").isPrefixOf line then some (strL "❌ EXPECTED: " ++ line.drop 2)
    else if (strL "+ ").isPrefixOf line then some (strL "⚠️ ACTUAL:   " ++ line.drop 2)
    else if (strL "? ").isPrefixOf line then none
    else some (strL "✅ MATCH:    " ++ line.drop 2))
  let has_diff := diff.any (fun line =>
    (strL "- ").isPrefixOf line || (strL "+ ").isPrefixOf line)
  if has_diff then joinLines report else strL "Hidden character mismatch."

/-!
## Session update (`backend/app.py`, lines 171-189)

The session-management step of `submit_code`: sessions are dicts
`{"last_error": status-or-None, "attempt": int}` (the default for a fresh
session is `{"last_error": None, "attempt": 0}`).
-/

/-- A session as read by `submit_code` (`draft_code` is irrelevant to the
attempt-counter logic and carried separately below). -/
structure Session where
  last_error : Option Str
  attempt : Nat
  deriving DecidableEq, Repr

/-- The fresh-session default `{"last_error": None, "attempt": 0}`
(`app.py:173`). -/
def freshSession : Session := ⟨none, 0⟩

/-- The session update of `submit_code` (`app.py:176-186`): on `SUCCESS`
reset the counter, on a repeat of the previous error increment it,
otherwise set it to 1; always record the status in `last_error`. -/
def updateSession (s : Session) (final_status : Str) : Session :=
  if final_status = strL "SUCCESS" then
    { s with attempt := 0, last_error := some final_status }
  else if s.last_error = some final_status then
    { s with attempt := s.attempt + 1, last_error := some final_status }
  else
    { s with attempt := 1, last_error := some final_status }

/-- Number of leading elements of a list equal to `s` — the helper for the
run-length reading of the attempt counter. -/
def countRun (s : Str) : List Str → Nat
  | [] => 0
  | x :: xs => if x = s then countRun s xs + 1 else 0

/-- Run length of consecutive identical non-`SUCCESS` statuses at the head
of a reversed status history (most recent first). -/
def runLenRev : List Str → Nat
  | [] => 0
  | x :: xs => if x = strL "SUCCESS" then 0 else countRun x xs + 1

/-- Most recent status of a reversed history, as stored in `last_error`. -/
def lastErrRev : List Str → Option Str
  | [] => none
  | x :: _ => some x

/-!
## The sandbox (`backend/sandbox.py`)

A language runner returns either a raw triple `(returncode, stdout,
stderr)` or a pre-classified `(status_string, "", stderr)` — the
duck-typed union that `run_investigation` discriminates with
`isinstance(result[0], int)`.
-/

/-- Result of a language runner: `raw` for `(int, stdout, stderr)`,
`pre` for an explicit `(status, out, err)` string triple. -/
inductive RunnerResult where
  | raw (ret : Int) (out err : Str)
  | pre (status out err : Str)
  deriving DecidableEq, Repr

/-- The untyped evidence payload: absent, a plain string, or the
`{"expected":…, "actual":…, "diff":…}` record of a logic error. -/
inductive Evidence where
  | none
  | str (s : Str)
  | dict (expected actual diff : Str)
  deriving DecidableEq, Repr

/-- A hidden test case `{"input": …, "output": …}`. -/
structure Case where
  input : Str
  output : Str
  deriving DecidableEq, Repr

/-- A problem record as used by `run_investigation`: only the
`hidden_cases` key is read (`problem.get("hidden_cases", [])`), which may
be absent. -/
structure Problem where
  hidden_cases : Option (List Case)
  deriving DecidableEq, Repr

/-- `run_python` (`sandbox.py:114-135`).  The container execution
(`run_in_docker`) is external and passed in as `container`; the embedded
part is the Python-specific stderr pre-classification: stderr containing
`"SyntaxError"` or `"IndentationError"` becomes `SYNTAX_ERROR`, stderr
containing `"TypeError"` becomes `TYPE_ERROR`, anything else is returned
raw. -/
def run_python (container : Str → Str → Int × Str × Str)
    (code input_str : Str) : RunnerResult :=
  let r := container code input_str
  let ret := r.1
  let out := r.2.1
  let err := r.2.2
  if strContains err (strL "SyntaxError") || strContains err (strL "IndentationError") then
    .pre (strL "SYNTAX_ERROR") [] err
  else if strContains err (strL "TypeError") then
    .pre (strL "TYPE_ERROR") [] err
  else
    .raw ret out err

/-- The `RUNNERS` dispatch table (`sandbox.py:164`): the four recognised
languages, with the (container-backed, hence parametric) runner
implementations supplied as arguments. -/
def RUNNERS (c cpp python java : Str → Str → RunnerResult) :
    Str → Option (Str → Str → RunnerResult) :=
  fun language =>
    if language = strL "c" then some c
    else if language = strL "cpp" then some cpp
    else if language = strL "python" then some python
    else if language = strL "java" then some java
    else none

/-- The log line of `sandbox.py:168`. -/
def phase1Log (language : Str) : Str :=
  strL "🔵 Phase 1: Initializing Docker Sandbox for " ++
    language.map Char.toUpper ++ strL "..."

/-- The log line of `sandbox.py:175`. -/
def phase2Log (n : Nat) : Str :=
  strL "⚙️ Phase 2: Loading " ++ strL (toString n) ++ strL " isolated test cases..."

/-- The log line of `sandbox.py:181`. -/
def phase3Log (n : Nat) : Str :=
  strL "🧪 Phase 3: Running Test Case #" ++ strL (toString n) ++ strL "..."

/-- The decision ladder of `run_investigation` (`sandbox.py:197-225`) for
one case, given the (possibly placeholder) exit code and the streams:
`some (extra log lines, status, evidence)` short-circuits the loop, `none`
means the case passed. -/
def caseLadder (ndiff : List Str → List Str → List Str)
    (case_expected : Str) (ret : Int) (out err : Str) :
    Option (List Str × Str × Evidence) :=
  let output := pyStrip out
  if ret = 124 then
    some ([], strL "TIME_LIMIT_EXCEEDED", .str (strL "Code took too long to execute."))
  else if ret = 137 then
    some ([], strL "MEMORY_LIMIT_EXCEEDED", .str (strL "Process killed (OOM)."))
  else if ret = 139 then
    some ([], strL "SEGFAULT_ERROR", .str (strL "Memory Access Violation."))
  else if ret ≠ 0 then
    some ([], strL "RUNTIME_ERROR", .str err)
  else if output = [] ∧ case_expected ≠ [] then
    some ([], strL "INPUT_OUTPUT_ERROR",
      .str (strL "Program finished but produced no output."))
  else if output ≠ case_expected then
    some ([strL "❌ Failure: Logic Mismatch."], strL "LOGIC_ERROR",
      .dict case_expected output (generate_diff ndiff case_expected output))
  else
    none

/-- The per-case loop of `run_investigation` (`sandbox.py:177-228`):
run the case, short-circuit on pre-classified statuses (an unrecognised
pre-classified status falls through with the placeholder exit code `-1`),
then walk the decision ladder, else continue with the next case. -/
def investigateCases (ndiff : List Str → List Str → List Str)
    (runner : Str → Str → RunnerResult) (code : Str) :
    List Case → Nat → List Str → List Str × Str × Evidence
  | [], _, logs =>
    (logs ++ [strL "🎉 Result: Passed all hidden test cases."], strL "SUCCESS", .none)
  | c :: rest, index, logs =>
    let case_expected := pyStrip c.output
    let logs := logs ++ [phase3Log (index + 1)]
    let step : Option (List Str × Str × Evidence) :=
      match runner code c.input with
      | .pre status out err =>
        if status = strL "SYNTAX_ERROR" ∨ status = strL "COMPILATION_ERROR" ∨
            status = strL "TYPE_ERROR" then
          some ([], status, .str err)
        else
          caseLadder ndiff case_expected (-1) out err
      | .raw ret out err => caseLadder ndiff case_expected ret out err
    match step with
    | some (extra, status, evidence) => (logs ++ extra, status, evidence)
    | none => investigateCases ndiff runner code rest (index + 1) logs

/-- `run_investigation` (`sandbox.py:166-228`).  Returns `Except` because
the Python code *raises* (`AttributeError`) when the problem id is missing
from `problems_db`: `problem = problems_db.get(problem_id)` yields `None`
and line 174 then calls `problem.get("hidden_cases", [])` on `None` —
note that only `runner` is `None`-checked (line 172). -/
def run_investigation (ndiff : List Str → List Str → List Str)
    (runners : Str → Option (Str → Str → RunnerResult))
    (code language problem_id : Str) (problems_db : Str → Option Problem) :
    Except Str (List Str × Str × Evidence) :=
  let logs : List Str := [phase1Log language]
  match runners language, problems_db problem_id with
  | none, _ => .ok (logs, strL "SYSTEM_ERROR", .str (strL "Language unsupported"))
  | some _, none =>
    .error (strL "AttributeError: 'NoneType' object has no attribute 'get'")
  | some runner, some problem =>
    let hidden_cases := problem.hidden_cases.getD []
    let logs := logs ++ [phase2Log hidden_cases.length]
    .ok (investigateCases ndiff runner code hidden_cases 0 logs)

/-!
## The priority analyzer (`backend/agent.py`, lines 59-82) and the
override step of `submit_code` (`backend/app.py`, lines 151-164)
-/

/-- A knowledge-base entry of the priority dictionary:
`{type, priority, pattern, hint, …}`. -/
structure ErrEntry where
  etype : Str
  priority : Nat
  pat : Str
  hint : Str
  deriving DecidableEq, Repr

/-- Python `min(detected, key=lambda x: x['priority'])`: the first element
with minimal priority (ties keep the earlier, i.e. catalog, order). -/
def minByPriority (d : ErrEntry) (ds : List ErrEntry) : ErrEntry :=
  ds.foldl (fun best e => if e.priority < best.priority then e else best) d

/-- `analyze_error_logs` (`agent.py:59-82`).  `re.search(pattern, text,
re.IGNORECASE)` is external and passed in as `search : pattern → text →
Bool`; the catalog `ERROR_PATTERNS` is the loaded data file, passed as
`error_patterns`. -/
def analyze_error_logs (search : Str → Str → Bool)
    (error_patterns : List ErrEntry) (logs : List Str) : Str × Str :=
  if logs.isEmpty then (strL "SUCCESS", strL "No errors found.")
  else
    let log_text := joinLines logs
    let detected_errors := error_patterns.filter (fun e => search e.pat log_text)
    match detected_errors with
    | [] => (strL "SUCCESS", strL "No errors found.")
    | d :: ds =>
      let best_match := minByPriority d ds
      (best_match.etype, best_match.hint)

/-- The override step of `submit_code` (`app.py:157-164`): the analyzer's
verdict replaces the coarse status (and its hint replaces the evidence)
exactly when the analyzer detected something and the coarse status is
`LOGIC_ERROR`. -/
def priority_override (detected_type detected_hint raw_status : Str)
    (evidence : Evidence) : Str × Evidence :=
  if detected_type ≠ strL "SUCCESS" ∧ raw_status = strL "LOGIC_ERROR" then
    (detected_type, .str detected_hint)
  else
    (raw_status, evidence)

/-!
## `create_source_diff` (`backend/agent.py`, lines 85-99) and a concrete
model of `difflib.unified_diff`

`create_source_diff` strips and splits both sources, calls
`difflib.unified_diff(user_lines, fixed_lines, n=1, lineterm='')`, and
returns the joined diff without its first two (file-header) lines, or
`None` when the diff has at most two lines.

`difflib` is embedded following its documented algorithm.
`find_longest_match` is the brute-force specification difflib documents:
among all maximal matching blocks the one starting earliest in `a`, then
earliest in `b` (the autojunk heuristic for sequences of ≥ 200 elements
is not modelled).  `get_matching_blocks` recurses on both sides of the
longest match, merges adjacent blocks and appends the `(la, lb, 0)`
sentinel; `get_opcodes` and `get_grouped_opcodes` follow difflib's code
line by line with context `n`.
-/

/-- Length of the common prefix of two lists. -/
def commonRun [DecidableEq α] : List α → List α → Nat
  | x :: xs, y :: ys => if x = y then commonRun xs ys + 1 else 0
  | _, _ => 0

/-- `SequenceMatcher.find_longest_match` over the whole sequences (no
junk): the triple `(i, j, k)` maximising `k` such that `a[i:i+k] ==
b[j:j+k]`, ties broken by smallest `i`, then smallest `j`; `(0, 0, 0)`
when there is no non-empty common block. -/
def findLongestMatch [DecidableEq α] (a b : List α) : Nat × Nat × Nat :=
  (List.range a.length).foldl (fun best i =>
    (List.range b.length).foldl (fun best j =>
      let k := commonRun (a.drop i) (b.drop j)
      if best.2.2 < k then (i, j, k) else best) best) (0, 0, 0)

theorem commonRun_le_left [DecidableEq α] (xs ys : List α) :
    commonRun xs ys ≤ xs.length := by
  induction xs generalizing ys with
  | nil => simp [commonRun]
  | cons x xs ih =>
    cases ys with
    | nil => simp [commonRun]
    | cons y ys =>
      simp only [commonRun, List.length_cons]
      split
      · exact Nat.succ_le_succ (ih ys)
      · exact Nat.zero_le _

theorem commonRun_le_right [DecidableEq α] (xs ys : List α) :
    commonRun xs ys ≤ ys.length := by
  induction xs generalizing ys with
  | nil => simp [commonRun]
  | cons x xs ih =>
    cases ys with
    | nil => simp [commonRun]
    | cons y ys =>
      simp only [commonRun, List.length_cons]
      split
      · exact Nat.succ_le_succ (ih ys)
      · exact Nat.zero_le _

theorem take_commonRun_eq [DecidableEq α] (xs ys : List α) :
    xs.take (commonRun xs ys) = ys.take (commonRun xs ys) := by
  induction xs generalizing ys with
  | nil => simp [commonRun]
  | cons x xs ih =>
    cases ys with
    | nil => simp [commonRun]
    | cons y ys =>
      simp only [commonRun]
      split
      · next h => simp [List.take_succ_cons, h, ih ys]
      · simp

/-- Every value of a fold is reachable through the step function, so a
predicate preserved by the step function holds of the result. -/
theorem foldl_preserve {β : Type u} {γ : Type v} (P : β → Prop)
    (f : β → γ → β) (l : List γ) (init : β) (hinit : P init)
    (hstep : ∀ acc x, x ∈ l → P acc → P (f acc x)) : P (l.foldl f init) := by
  induction l generalizing init with
  | nil => exact hinit
  | cons x xs ih =>
    exact ih (f init x) (hstep init x (List.mem_cons_self x xs) hinit)
      (fun acc y hy => hstep acc y (List.mem_cons_of_mem x hy))

/-- Invariant of the longest-match search: the candidate is in bounds and
its two slices agree. -/
def FlmInv (a b : List α) (t : Nat × Nat × Nat) : Prop :=
  t.1 + t.2.2 ≤ a.length ∧ t.2.1 + t.2.2 ≤ b.length ∧
    (a.drop t.1).take t.2.2 = (b.drop t.2.1).take t.2.2

/-- The longest-match triple is in bounds and really is a matching block. -/
theorem findLongestMatch_spec [DecidableEq α] (a b : List α) :
    FlmInv a b (findLongestMatch a b) := by
  unfold findLongestMatch
  apply foldl_preserve (FlmInv a b)
  · exact ⟨Nat.zero_le _, Nat.zero_le _, rfl⟩
  · intro acc i hi hacc
    apply foldl_preserve (FlmInv a b)
    · exact hacc
    · intro acc2 j hj hacc2
      dsimp only
      split
      · refine ⟨?_, ?_, take_commonRun_eq _ _⟩
        · have h1 := commonRun_le_left (a.drop i) (b.drop j)
          have h2 : i < a.length := List.mem_range.mp hi
          simp only [List.length_drop] at h1
          dsimp only
          omega
        · have h1 := commonRun_le_right (a.drop i) (b.drop j)
          have h2 : j < b.length := List.mem_range.mp hj
          simp only [List.length_drop] at h1
          dsimp only
          omega
      · exact hacc2

/-- `SequenceMatcher.get_matching_blocks` without the final merge pass or
sentinel: recurse left and right of the longest match. -/
def rawBlocks [DecidableEq α] (a b : List α) : List (Nat × Nat × Nat) :=
  let t := findLongestMatch a b
  if h : t.2.2 = 0 then []
  else
    rawBlocks (a.take t.1) (b.take t.2.1) ++ t ::
      (rawBlocks (a.drop (t.1 + t.2.2)) (b.drop (t.2.1 + t.2.2))).map
        (fun u => (u.1 + (t.1 + t.2.2), u.2.1 + (t.2.1 + t.2.2), u.2.2))
termination_by a.length + b.length
decreasing_by
  · obtain ⟨h1, h2, -⟩ := findLongestMatch_spec a b
    have h0 : ¬ (findLongestMatch a b).2.2 = 0 := h
    simp only [List.length_take]
    omega
  · obtain ⟨h1, h2, -⟩ := findLongestMatch_spec a b
    have h0 : ¬ (findLongestMatch a b).2.2 = 0 := h
    simp only [List.length_drop]
    omega

/-- The adjacent-block merge pass of `get_matching_blocks`. -/
def collapseBlocks : List (Nat × Nat × Nat) → List (Nat × Nat × Nat)
  | [] => []
  | [x] => [x]
  | x :: y :: rest =>
    if x.1 + x.2.2 = y.1 ∧ x.2.1 + x.2.2 = y.2.1 then
      collapseBlocks ((x.1, x.2.1, x.2.2 + y.2.2) :: rest)
    else x :: collapseBlocks (y :: rest)
termination_by l => l.length

/-- `SequenceMatcher.get_matching_blocks`: merged blocks plus the
`(len(a), len(b), 0)` sentinel. -/
def matchingBlocks [DecidableEq α] (a b : List α) : List (Nat × Nat × Nat) :=
  collapseBlocks (rawBlocks a b) ++ [(a.length, b.length, 0)]

/-- An opcode tag of `SequenceMatcher.get_opcodes`. -/
inductive DTag where
  | replace
  | delete
  | insert
  | equal
  deriving DecidableEq, Repr

/-- An opcode `(tag, i1, i2, j1, j2)`. -/
structure Opcode where
  tag : DTag
  i1 : Nat
  i2 : Nat
  j1 : Nat
  j2 : Nat
  deriving DecidableEq, Repr

/-- The placeholder opcode used for `headD`/`getLastD`. -/
def defaultOp : Opcode := ⟨.equal, 0, 0, 0, 0⟩

/-- The loop of `get_opcodes`: walk the matching blocks, emitting a gap
opcode (replace/delete/insert) before each block and an `equal` opcode
for each non-empty block. -/
def opcodesFrom : Nat → Nat → List (Nat × Nat × Nat) → List Opcode
  | _, _, [] => []
  | i, j, (ai, bj, size) :: rest =>
    let gap : List Opcode :=
      if i < ai ∧ j < bj then [⟨.replace, i, ai, j, bj⟩]
      else if i < ai then [⟨.delete, i, ai, j, bj⟩]
      else if j < bj then [⟨.insert, i, ai, j, bj⟩]
      else []
    let eqOp : List Opcode :=
      if size ≠ 0 then [⟨.equal, ai, ai + size, bj, bj + size⟩] else []
    gap ++ eqOp ++ opcodesFrom (ai + size) (bj + size) rest

/-- `SequenceMatcher.get_opcodes`. -/
def getOpcodes [DecidableEq α] (a b : List α) : List Opcode :=
  opcodesFrom 0 0 (matchingBlocks a b)

/-- The head-trimming step of `get_grouped_opcodes`: shrink a leading
`equal` opcode to at most `n` lines of context. -/
def trimHead (n : Nat) : List Opcode → List Opcode
  | [] => []
  | op :: rest =>
    if op.tag = .equal then
      ⟨.equal, max op.i1 (op.i2 - n), op.i2, max op.j1 (op.j2 - n), op.j2⟩ :: rest
    else op :: rest

/-- The tail-trimming step of `get_grouped_opcodes`: shrink a trailing
`equal` opcode to at most `n` lines of context. -/
def trimTail (n : Nat) : List Opcode → List Opcode
  | [] => []
  | [op] =>
    if op.tag = .equal then
      [⟨.equal, op.i1, min op.i2 (op.i1 + n), op.j1, min op.j2 (op.j1 + n)⟩]
    else [op]
  | op :: rest => op :: trimTail n rest

/-- The grouping loop of `get_grouped_opcodes`: split at `equal` opcodes
wider than `2n`, keeping `n` lines of context on each side; a final group
that is empty or a single `equal` opcode is suppressed. -/
def loopGroups (n : Nat) : List Opcode → List Opcode → List (List Opcode)
  | group, [] =>
    match group with
    | [] => []
    | [op] => if op.tag = .equal then [] else [[op]]
    | _ :: _ :: _ => [group]
  | group, op :: rest =>
    if op.tag = .equal ∧ n + n < op.i2 - op.i1 then
      (group ++ [⟨.equal, op.i1, min op.i2 (op.i1 + n), op.j1, min op.j2 (op.j1 + n)⟩]) ::
        loopGroups n [⟨.equal, max op.i1 (op.i2 - n), op.i2, max op.j1 (op.j2 - n), op.j2⟩] rest
    else loopGroups n (group ++ [op]) rest

/-- `SequenceMatcher.get_grouped_opcodes(n)` (including the placeholder
opcode substituted for an empty opcode list). -/
def groupedOpcodes (n : Nat) (codes0 : List Opcode) : List (List Opcode) :=
  let codes1 := if codes0.isEmpty then [⟨.equal, 0, 1, 0, 1⟩] else codes0
  loopGroups n [] (trimTail n (trimHead n codes1))

/-- Decimal digit character. -/
def digitCh : Nat → Char
  | 0 => '0'
  | 1 => '1'
  | 2 => '2'
  | 3 => '3'
  | 4 => '4'
  | 5 => '5'
  | 6 => '6'
  | 7 => '7'
  | 8 => '8'
  | _ => '9'

/-- Numeric value of a digit character. -/
def digitVal (c : Char) : Nat := c.toNat - 48

/-- Python `str(n)` for a natural number. -/
def natToStr (n : Nat) : Str :=
  if n = 0 then ['0'] else ((Nat.digits 10 n).map digitCh).reverse

/-- Lenient decimal reading (used by the patch parser). -/
def strToNatD (s : Str) : Nat :=
  s.foldl (fun acc c => acc * 10 + digitVal c) 0

/-- `difflib._format_range_unified`. -/
def formatRangeUnified (start stop : Nat) : Str :=
  let beginning := start + 1
  let length := stop - start
  if length = 1 then natToStr beginning
  else natToStr (if length = 0 then beginning - 1 else beginning) ++ ',' :: natToStr length

/-- The body lines a single opcode contributes to a unified-diff hunk. -/
def opLines (a b : List Str) (op : Opcode) : List Str :=
  match op.tag with
  | .equal => (sliceIdx a op.i1 op.i2).map (fun l => ' ' :: l)
  | .replace =>
    (sliceIdx a op.i1 op.i2).map (fun l => '-' :: l) ++
      (sliceIdx b op.j1 op.j2).map (fun l => '+' :: l)
  | .delete => (sliceIdx a op.i1 op.i2).map (fun l => '-' :: l)
  | .insert => (sliceIdx b op.j1 op.j2).map (fun l => '+' :: l)

/-- One hunk of `difflib.unified_diff` output: the `@@` header followed by
the tagged body lines. -/
def formatGroup (a b : List Str) (group : List Opcode) : List Str :=
  let first := group.headD defaultOp
  let last := group.getLastD defaultOp
  (strL "@@ -" ++ formatRangeUnified first.i1 last.i2 ++
    strL " +" ++ formatRangeUnified first.j1 last.j2 ++ strL " @@") ::
    (group.map (opLines a b)).flatten

/-- `difflib.unified_diff(a, b, n=1, lineterm='')` with empty file names:
nothing for equal inputs, otherwise the two file-header lines followed by
the formatted hunks. -/
def unified_diff (a b : List Str) : List Str :=
  let groups := groupedOpcodes 1 (getOpcodes a b)
  if groups.isEmpty then []
  else strL "--- " :: strL "+++ " :: (groups.map (formatGroup a b)).flatten

/-- `create_source_diff` (`agent.py:85-99`): the unified diff of the
stripped-and-split sources with one line of context, with the first two
lines removed; `None` when the diff has at most two lines. -/
def create_source_diff (user_code fixed_code : Str) : Option Str :=
  let user_lines := splitLines (pyStrip user_code)
  let fixed_lines := splitLines (pyStrip fixed_code)
  let diff_list := unified_diff user_lines fixed_lines
  if 2 < diff_list.length then some (joinLines (diff_list.drop 2)) else none

/-!
## Patch application (modelled from the spec)

Spec invariant I5 speaks of "applying the returned patch": the standard
semantics of applying unified-diff hunks, embedded here so the round-trip
property can be stated.  A hunk records the 0-based position in the old
file, the old lines it consumes and the new lines it produces.
-/

/-- A parsed unified-diff hunk. -/
structure Hunk where
  pos : Nat
  olds : List Str
  news : List Str
  deriving DecidableEq, Repr

/-- A hunk-header line starts with `"@@ -"`; body lines start with a tag
character (`' '`, `'-'`, `'+'`) and therefore never look like a header. -/
def isHunkHeader (l : Str) : Bool := (strL "@@ -").isPrefixOf l

/-- The old-file lines of a hunk body (context and deletion lines). -/
def collectOlds (body : List Str) : List Str :=
  body.filterMap fun l =>
    match l with
    | ' ' :: r => some r
    | '-' :: r => some r
    | _ => none

/-- The new-file lines of a hunk body (context and insertion lines). -/
def collectNews (body : List Str) : List Str :=
  body.filterMap fun l =>
    match l with
    | ' ' :: r => some r
    | '+' :: r => some r
    | _ => none

/-- The leading number of the old range in a hunk header `"@@ -X… +… @@"`. -/
def headerOldStart (l : Str) : Nat :=
  strToNatD ((l.drop 4).takeWhile isDigitCh)

theorem length_dropWhile_le (p : α → Bool) (l : List α) :
    (l.dropWhile p).length ≤ l.length := by
  induction l with
  | nil => simp
  | cons x xs ih =>
    simp only [List.dropWhile]
    split
    · exact Nat.le_succ_of_le ih
    · exact Nat.le_refl _

/-- Parse the lines of a unified-diff body into hunks.  The displayed old
start is 1-based except for an empty old range, where difflib prints the
0-based position directly. -/
def parseHunks : List Str → List Hunk
  | [] => []
  | l :: rest =>
    if isHunkHeader l then
      let body := rest.takeWhile (fun x => ! isHunkHeader x)
      let rest2 := rest.dropWhile (fun x => ! isHunkHeader x)
      let olds := collectOlds body
      let news := collectNews body
      let x := headerOldStart l
      ⟨if olds.length = 0 then x else x - 1, olds, news⟩ :: parseHunks rest2
    else parseHunks rest
termination_by l => l.length
decreasing_by
  · exact Nat.lt_succ_of_le (length_dropWhile_le _ _)
  · exact Nat.lt_succ_self _

/-- Apply hunks (sorted by position) to the old lines, checking that each
hunk's old lines match; `none` when a hunk does not apply. -/
def applyHunks (a : List Str) : Nat → List Hunk → Option (List Str)
  | cursor, [] => some (a.drop cursor)
  | cursor, h :: rest =>
    if cursor ≤ h.pos ∧ h.pos + h.olds.length ≤ a.length ∧
        sliceIdx a h.pos (h.pos + h.olds.length) = h.olds then
      (applyHunks a (h.pos + h.olds.length) rest).map
        (fun tail => sliceIdx a cursor h.pos ++ h.news ++ tail)
    else none

/-- The intended result of applying hunks, without the applicability
checks (used to state correctness). -/
def hunksResult (a : List Str) : Nat → List Hunk → List Str
  | cursor, [] => a.drop cursor
  | cursor, h :: rest =>
    sliceIdx a cursor h.pos ++ h.news ++ hunksResult a (h.pos + h.olds.length) rest

/-- Apply a unified-diff body (as returned by `create_source_diff`) to a
source text: split both into lines, apply the hunks, join with `'\n'`. -/
def applyPatch (patch original : Str) : Option Str :=
  (applyHunks (splitLines original) 0 (parseHunks (splitLines patch))).map joinLines

/-!
## The diagnostic parser (`backend/diagnostics.py`)

The fixed regular expressions of `diagnostics.py` are embedded as direct
scanners with Python `re` semantics for these patterns: a match is
searched at the leftmost starting position (for `re.match`, only position
0), a non-greedy `(.*?)` takes the shortest span that lets the rest of the
pattern match, and `(\d+)` takes the maximal digit run (which must be
non-empty).
-/

/-- A diagnostic record `{line, col?, msg, raw}`; the fallback records of
`get_first_error` omit the `col` key, modelled as `none`. -/
structure Diag where
  line : Str
  col : Option Str
  msg : Str
  raw : Str
  deriving DecidableEq, Repr

/-- The keyword alternative `(error|warning|fatal error)` of the C/C++
pattern followed by `": "`, tried in the regex's alternation order;
returns the message remainder (which must be non-empty, `(.+)`). -/
def cKeywordTail (s : Str) : Option Str :=
  let tryKw : String → Option Str := fun kw =>
    if (strL kw ++ strL ": ").isPrefixOf s then
      let rest := s.drop (kw.length + 2)
      if rest = [] then none else some rest
    else none
  (tryKw "error").orElse fun _ => (tryKw "warning").orElse fun _ => tryKw "fatal error"

/-- Anchored match of the C/C++ diagnostic pattern
`(.*?):(\d+):(\d+): (error|warning|fatal error): (.+)` against one line:
returns `(line number, column, message)`. -/
def matchCdiag (l : Str) : Option (Str × Str × Str) :=
  (List.range (l.length + 1)).findSome? fun p =>
    match l.drop p with
    | ':' :: s1 =>
      let d1 := s1.takeWhile isDigitCh
      if d1 = [] then none
      else
        match s1.drop d1.length with
        | ':' :: s2 =>
          let d2 := s2.takeWhile isDigitCh
          if d2 = [] then none
          else
            match s2.drop d2.length with
            | ':' :: ' ' :: s3 => (cKeywordTail s3).map fun msg => (d1, d2, msg)
            | _ => none
        | _ => none
    | _ => none

/-- Anchored match of the Java compiler pattern `(.*?):(\d+): error: (.+)`
against one line: returns `(line number, message)`. -/
def matchJavaCompile (l : Str) : Option (Str × Str) :=
  (List.range (l.length + 1)).findSome? fun p =>
    match l.drop p with
    | ':' :: s1 =>
      let d1 := s1.takeWhile isDigitCh
      if d1 = [] then none
      else
        if (strL ": error: ").isPrefixOf (s1.drop d1.length) then
          let rest := (s1.drop d1.length).drop 9
          if rest = [] then none else some (d1, rest)
        else none
    | _ => none

/-- Unanchored search of `File "(.*?)", line (\d+)` in one line
(`parse_python_error`'s `line_pattern`): returns the digit group. -/
def matchPyFile (l : Str) : Option Str :=
  (List.range (l.length + 1)).findSome? fun p =>
    let s := l.drop p
    if (strL "File \"").isPrefixOf s then
      let s1 := s.drop 6
      (List.range (s1.length + 1)).findSome? fun q =>
        let s2 := s1.drop q
        if (strL "\", line ").isPrefixOf s2 then
          let ds := (s2.drop 8).takeWhile isDigitCh
          if ds = [] then none else some ds
        else none
    else none

/-- Unanchored search of `at .*?\((.*?):(\d+)\)` in one line
(`parse_java_traceback`'s `trace_pattern`): returns
`(the parenthesised file group, the digit group)`. -/
def matchJavaTrace (l : Str) : Option (Str × Str) :=
  (List.range (l.length + 1)).findSome? fun p =>
    let s := l.drop p
    if (strL "at ").isPrefixOf s then
      let s1 := s.drop 3
      (List.range (s1.length + 1)).findSome? fun r =>
        match s1.drop r with
        | '(' :: s2 =>
          (List.range (s2.length + 1)).findSome? fun q =>
            match s2.drop q with
            | ':' :: s3 =>
              let ds := s3.takeWhile isDigitCh
              if ds = [] then none
              else
                match s3.drop ds.length with
                | ')' :: _ => some (s2.take q, ds)
                | _ => none
            | _ => none
        | _ => none
    else none

/-- `parse_python_error` (`diagnostics.py:22-46`): the message is the last
non-blank line containing `"Error:"` (stripped), the line number comes
from the *last* `File "…", line N` occurrence in the traceback. -/
def parse_python_error (stderr_output : Str) : Diag :=
  let lines := splitNl stderr_output
  let error_msg :=
    ((lines.reverse.find? fun l => pyStrip l ≠ [] ∧ strContains l (strL "Error:")).map
      pyStrip).getD (strL "Runtime Error")
  let line_num :=
    (lines.foldl (fun acc l => ((matchPyFile l).map some).getD acc) none).getD (strL "?")
  ⟨line_num, some (strL "0"), error_msg, stderr_output⟩

/-- `parse_java_traceback` (`diagnostics.py:48-70`): the message is the
first stderr line; the line number is taken from the first stack frame
whose file group contains `"Main.java"`. -/
def parse_java_traceback (stderr_output : Str) : Diag :=
  let lines := splitNl stderr_output
  let error_msg := lines.headD (strL "Runtime Error")
  let line_num :=
    (lines.findSome? fun l =>
      match matchJavaTrace l with
      | some (g1, g2) => if strContains g1 (strL "Main.java") then some g2 else none
      | none => none).getD (strL "?")
  ⟨line_num, some (strL "0"), error_msg, stderr_output⟩

/-- The fallback record of `get_first_error` (`diagnostics.py:110-115`):
line unknown, message is the first line of the stripped stderr, truncated
to 150 characters. -/
def diagFallback (stderr_output : Str) : Diag :=
  ⟨strL "?", none, ((splitNl (pyStrip stderr_output)).headD []).take 150, stderr_output⟩

/-- `get_first_error` (`diagnostics.py:72-115`): empty stderr gives the
unknown record; Python stderr goes to `parse_python_error`; C/C++/Java
stderr is scanned line by line (each line stripped) for the first
compiler-diagnostic match; unmatched Java stderr falls back to the
runtime stack-trace walk; anything else falls back to the truncated first
line. -/
def get_first_error (stderr_output : Str) (language : Str) : Diag :=
  if stderr_output = [] then ⟨strL "?", none, strL "Unknown Error", []⟩
  else if language = strL "python" then parse_python_error stderr_output
  else
    let compilerHit : Option Diag :=
      if language = strL "c" ∨ language = strL "cpp" then
        (splitNl stderr_output).findSome? fun line =>
          (matchCdiag (pyStrip line)).map fun g =>
            ⟨g.1, some g.2.1, pyStrip g.2.2, pyStrip line⟩
      else if language = strL "java" then
        (splitNl stderr_output).findSome? fun line =>
          (matchJavaCompile (pyStrip line)).map fun g =>
            ⟨g.1, some (strL "0"), pyStrip g.2, pyStrip line⟩
      else none
    match compilerHit with
    | some d => d
    | none =>
      if language = strL "java" then
        let trace_result := parse_java_traceback stderr_output
        if trace_result.line ≠ strL "?" then trace_result
        else diagFallback stderr_output
      else diagFallback stderr_output

/-!
## The evidence-normalisation step of `submit_code`
(`backend/app.py`, lines 151-169)
-/

/-- The classification part of `submit_code` after the sandbox returns
(`app.py:151-169`): run the priority analyzer over the logs, apply the
override rule, then — only for a final status of `SYNTAX_ERROR` or
`RUNTIME_ERROR` with string evidence from the sandbox — replace the
evidence by the diagnostic parser's `"Line N: message"` normalisation of
the raw evidence. -/
def submit_classify (search : Str → Str → Bool) (error_patterns : List ErrEntry)
    (logs : List Str) (raw_status : Str) (evidence : Evidence)
    (language : Str) : Str × Evidence :=
  let detected := analyze_error_logs search error_patterns logs
  let fs := priority_override detected.1 detected.2 raw_status evidence
  let final_status := fs.1
  let clean_evidence :=
    match evidence with
    | .str s =>
      if final_status = strL "SYNTAX_ERROR" ∨ final_status = strL "RUNTIME_ERROR" then
        let diag := get_first_error s language
        .str (strL "Line " ++ diag.line ++ strL ": " ++ diag.msg)
      else fs.2
    | _ => fs.2
  (final_status, clean_evidence)

/-!
## Draft endpoints (`backend/app.py`, lines 103-132)

Raw session dicts may lack any of the three keys; an absent key is
modelled as `none`.  (For `draft_code` and `last_error` the stored value
`None` and an absent key are indistinguishable through `.get(k, None)`,
which is how the code reads them.)
-/

/-- A raw session dict `{draft_code?, attempt?, last_error?}`. -/
structure SessionRec where
  draft_code : Option Str
  attempt : Option Nat
  last_error : Option Str
  deriving DecidableEq, Repr

/-- The response shape of `GET /draft/{user_id}/{problem_id}`. -/
structure DraftResponse where
  draft_code : Option Str
  attempts : Nat
  last_error : Option Str
  deriving DecidableEq, Repr

/-- The session-store key `f"{user_id}_{problem_id}"`. -/
def sessionKey (user_id problem_id : Str) : Str :=
  user_id ++ '_' :: problem_id

/-- `get_draft` (`app.py:103-115`): look the session up with default `{}`
and read the three fields with defaults `None`, `0`, `None`. -/
def get_draft (sessions : Str → Option SessionRec)
    (user_id problem_id : Str) : DraftResponse :=
  let user_state := (sessions (sessionKey user_id problem_id)).getD ⟨none, none, none⟩
  ⟨user_state.draft_code, user_state.attempt.getD 0, user_state.last_error⟩

/-- `save_draft` (`app.py:118-132`): read the session with default
`{"last_error": None, "attempt": 0}`, overwrite only `draft_code`, store
it back.  Returns the updated session store. -/
def save_draft (sessions : Str → Option SessionRec)
    (user_id problem_id code : Str) : Str → Option SessionRec :=
  let key := sessionKey user_id problem_id
  let user_state := (sessions key).getD ⟨none, some 0, none⟩
  let user_state := { user_state with draft_code := some code }
  fun k => if k = key then some user_state else sessions k

/-!
## Slice lemmas
-/

theorem sliceIdx_self (l : List α) (i : Nat) : sliceIdx l i i = [] := by
  simp [sliceIdx]

theorem sliceIdx_zero_length (l : List α) : sliceIdx l 0 l.length = l := by
  simp [sliceIdx]

theorem sliceIdx_eq_drop (l : List α) (i : Nat) : sliceIdx l i l.length = l.drop i := by
  simp [sliceIdx, List.take_of_length_le]

theorem sliceIdx_length (l : List α) (i j : Nat) (h1 : i ≤ j) (h2 : j ≤ l.length) :
    (sliceIdx l i j).length = j - i := by
  simp only [sliceIdx, List.length_take, List.length_drop]
  omega

theorem sliceIdx_decompose (l : List α) (i m j : Nat) (h1 : i ≤ m) (h2 : m ≤ j) :
    sliceIdx l i j = sliceIdx l i m ++ sliceIdx l m j := by
  simp only [sliceIdx]
  rw [show j - i = (m - i) + (j - m) by omega, List.take_add, List.drop_drop]
  rw [show i + (m - i) = m by omega]

theorem drop_decompose (l : List α) (i m : Nat) (h : i ≤ m) :
    l.drop i = sliceIdx l i m ++ l.drop m := by
  simp only [sliceIdx]
  conv_lhs => rw [← List.take_append_drop (m - i) (l.drop i)]
  rw [List.drop_drop, show i + (m - i) = m by omega]

theorem sliceIdx_take (l : List α) (t x m : Nat) (h : m ≤ t) :
    sliceIdx (l.take t) x m = sliceIdx l x m := by
  simp only [sliceIdx, List.drop_take]
  rw [List.take_take]
  congr 1
  omega

theorem sliceIdx_drop (l : List α) (d x y : Nat) :
    sliceIdx (l.drop d) x y = sliceIdx l (d + x) (d + y) := by
  simp only [sliceIdx, List.drop_drop]
  rw [show d + y - (d + x) = y - x by omega]

theorem drop_sliceIdx (l : List α) (i j d : Nat) :
    (sliceIdx l i j).drop d = sliceIdx l (i + d) j := by
  simp only [sliceIdx, List.drop_take, List.drop_drop]
  rw [show j - (i + d) = j - i - d by omega, show i + d = d + i by omega]

theorem take_sliceIdx (l : List α) (i j d : Nat) :
    (sliceIdx l i j).take d = sliceIdx l i (min (i + d) j) := by
  simp only [sliceIdx, List.take_take]
  congr 1
  omega

/-!
## Correctness of the matching-block computation

`BlocksChainTo a b i j bs ei ej` says: the blocks `bs` are ordered
matching blocks of `a` and `b` lying between the cursors `(i, j)` and the
bounds `(ei, ej)`.  `BlocksChain` additionally requires the list to end
with a cursor exactly at the sentinel position `(a.length, b.length)`.
-/

def BlocksChainTo (a b : List α) : Nat → Nat → List (Nat × Nat × Nat) → Nat → Nat → Prop
  | i, j, [], ei, ej => i ≤ ei ∧ j ≤ ej
  | i, j, blk :: rest, ei, ej =>
    i ≤ blk.1 ∧ j ≤ blk.2.1 ∧ blk.1 + blk.2.2 ≤ ei ∧ blk.2.1 + blk.2.2 ≤ ej ∧
      sliceIdx a blk.1 (blk.1 + blk.2.2) = sliceIdx b blk.2.1 (blk.2.1 + blk.2.2) ∧
      BlocksChainTo a b (blk.1 + blk.2.2) (blk.2.1 + blk.2.2) rest ei ej

theorem blocksChainTo_weaken_start (a b : List α) (bs : List (Nat × Nat × Nat))
    (i j i' j' ei ej : Nat) (hi : i' ≤ i) (hj : j' ≤ j)
    (h : BlocksChainTo a b i j bs ei ej) : BlocksChainTo a b i' j' bs ei ej := by
  cases bs with
  | nil => exact ⟨Nat.le_trans hi h.1, Nat.le_trans hj h.2⟩
  | cons blk rest =>
    obtain ⟨h1, h2, h3, h4, h5, h6⟩ := h
    exact ⟨Nat.le_trans hi h1, Nat.le_trans hj h2, h3, h4, h5, h6⟩

theorem blocksChainTo_weaken_end (a b : List α) (bs : List (Nat × Nat × Nat)) :
    ∀ i j ei ej ei' ej', ei ≤ ei' → ej ≤ ej' →
      BlocksChainTo a b i j bs ei ej → BlocksChainTo a b i j bs ei' ej' := by
  induction bs with
  | nil => exact fun i j ei ej ei' ej' hi hj h => ⟨Nat.le_trans h.1 hi, Nat.le_trans h.2 hj⟩
  | cons blk rest ih =>
    intro i j ei ej ei' ej' hi hj h
    obtain ⟨h1, h2, h3, h4, h5, h6⟩ := h
    exact ⟨h1, h2, Nat.le_trans h3 hi, Nat.le_trans h4 hj, h5,
      ih _ _ _ _ _ _ hi hj h6⟩

theorem blocksChainTo_start_le (a b : List α) (bs : List (Nat × Nat × Nat))
    (i j ei ej : Nat) (h : BlocksChainTo a b i j bs ei ej) : i ≤ ei ∧ j ≤ ej := by
  cases bs with
  | nil => exact h
  | cons blk rest =>
    obtain ⟨h1, h2, h3, h4, -⟩ := h
    exact ⟨by omega, by omega⟩

theorem blocksChainTo_append (a b : List α) (bs1 : List (Nat × Nat × Nat)) :
    ∀ bs2 i j m n ei ej, BlocksChainTo a b i j bs1 m n →
      BlocksChainTo a b m n bs2 ei ej →
      BlocksChainTo a b i j (bs1 ++ bs2) ei ej := by
  induction bs1 with
  | nil =>
    intro bs2 i j m n ei ej h1 h2
    exact blocksChainTo_weaken_start a b bs2 m n i j ei ej h1.1 h1.2 h2
  | cons blk rest ih =>
    intro bs2 i j m n ei ej h1 h2
    obtain ⟨ha, hb, hc, hd, he, hf⟩ := h1
    have hme := blocksChainTo_start_le a b bs2 m n ei ej h2
    exact ⟨ha, hb, by omega, by omega, he, ih bs2 _ _ m n ei ej hf h2⟩

theorem blocksChainTo_take_lift (a b : List α) (ti tj : Nat)
    (bs : List (Nat × Nat × Nat)) :
    ∀ i j ei ej, ei ≤ ti → ej ≤ tj →
      BlocksChainTo (a.take ti) (b.take tj) i j bs ei ej →
      BlocksChainTo a b i j bs ei ej := by
  induction bs with
  | nil => exact fun i j ei ej _ _ h => h
  | cons blk rest ih =>
    intro i j ei ej hti htj h
    obtain ⟨h1, h2, h3, h4, h5, h6⟩ := h
    refine ⟨h1, h2, h3, h4, ?_, ih _ _ _ _ hti htj h6⟩
    rw [← sliceIdx_take a ti blk.1 (blk.1 + blk.2.2) (by omega),
      ← sliceIdx_take b tj blk.2.1 (blk.2.1 + blk.2.2) (by omega)]
    exact h5

theorem blocksChainTo_drop_shift (a b : List α) (d e : Nat)
    (bs : List (Nat × Nat × Nat)) :
    ∀ i j ei ej, BlocksChainTo (a.drop d) (b.drop e) i j bs ei ej →
      BlocksChainTo a b (d + i) (e + j)
        (bs.map (fun u => (u.1 + d, u.2.1 + e, u.2.2))) (d + ei) (e + ej) := by
  induction bs with
  | nil =>
    intro i j ei ej h
    obtain ⟨hi, hj⟩ := h
    exact ⟨by omega, by omega⟩
  | cons blk rest ih =>
    obtain ⟨bi, bj, k⟩ := blk
    intro i j ei ej h
    obtain ⟨h1, h2, h3, h4, h5, h6⟩ := h
    simp only at h1 h2 h3 h4 h5
    simp only [List.map_cons]
    have hslice : sliceIdx a (bi + d) (bi + d + k) = sliceIdx b (bj + e) (bj + e + k) := by
      have ha := sliceIdx_drop a d bi (bi + k)
      have hb := sliceIdx_drop b e bj (bj + k)
      rw [show bi + d + k = d + (bi + k) by omega, show bi + d = d + bi by omega,
        show bj + e + k = e + (bj + k) by omega, show bj + e = e + bj by omega,
        ← ha, ← hb]
      exact h5
    refine ⟨by dsimp only; omega, by dsimp only; omega, by dsimp only; omega,
      by dsimp only; omega, hslice, ?_⟩
    have hrest := ih _ _ _ _ h6
    dsimp only
    rw [show bi + d + k = d + (bi + k) by omega, show bj + e + k = e + (bj + k) by omega]
    exact hrest

theorem rawBlocks_chain_aux [DecidableEq α] :
    ∀ (n : Nat) (a b : List α), a.length + b.length ≤ n →
      BlocksChainTo a b 0 0 (rawBlocks a b) a.length b.length := by
  intro n
  induction n with
  | zero =>
    intro a b h
    obtain ⟨h1, h2, h3⟩ := findLongestMatch_spec a b
    rw [rawBlocks, dif_pos (by omega)]
    exact ⟨Nat.zero_le _, Nat.zero_le _⟩
  | succ n ih =>
    intro a b h
    obtain ⟨h1, h2, h3⟩ := findLongestMatch_spec a b
    rw [rawBlocks]
    by_cases hz : (findLongestMatch a b).2.2 = 0
    · rw [dif_pos hz]
      exact ⟨Nat.zero_le _, Nat.zero_le _⟩
    · rw [dif_neg hz]
      have hi1 : (findLongestMatch a b).1 + (findLongestMatch a b).2.2 ≤ a.length := h1
      have hj1 : (findLongestMatch a b).2.1 + (findLongestMatch a b).2.2 ≤ b.length := h2
      -- the left recursion, lifted from the `take` prefixes
      have hlt : (a.take (findLongestMatch a b).1).length = (findLongestMatch a b).1 := by
        simp only [List.length_take]
        omega
      have hltb : (b.take (findLongestMatch a b).2.1).length = (findLongestMatch a b).2.1 := by
        simp only [List.length_take]
        omega
      have hleft0 := ih (a.take (findLongestMatch a b).1) (b.take (findLongestMatch a b).2.1)
        (by rw [hlt, hltb]; omega)
      rw [hlt, hltb] at hleft0
      have hleft := blocksChainTo_take_lift a b (findLongestMatch a b).1
        (findLongestMatch a b).2.1 _ 0 0 _ _ (Nat.le_refl _) (Nat.le_refl _) hleft0
      -- the right recursion, shifted out of the `drop` suffixes
      have hrd : (a.drop ((findLongestMatch a b).1 + (findLongestMatch a b).2.2)).length =
          a.length - ((findLongestMatch a b).1 + (findLongestMatch a b).2.2) := by
        simp [List.length_drop]
      have hrdb : (b.drop ((findLongestMatch a b).2.1 + (findLongestMatch a b).2.2)).length =
          b.length - ((findLongestMatch a b).2.1 + (findLongestMatch a b).2.2) := by
        simp [List.length_drop]
      have hright0 := ih (a.drop ((findLongestMatch a b).1 + (findLongestMatch a b).2.2))
        (b.drop ((findLongestMatch a b).2.1 + (findLongestMatch a b).2.2))
        (by rw [hrd, hrdb]; omega)
      rw [hrd, hrdb] at hright0
      have hright := blocksChainTo_drop_shift a b
        ((findLongestMatch a b).1 + (findLongestMatch a b).2.2)
        ((findLongestMatch a b).2.1 + (findLongestMatch a b).2.2) _ 0 0 _ _ hright0
      rw [Nat.add_zero, Nat.add_zero] at hright
      rw [show (findLongestMatch a b).1 + (findLongestMatch a b).2.2 +
          (a.length - ((findLongestMatch a b).1 + (findLongestMatch a b).2.2)) = a.length
          by omega,
        show (findLongestMatch a b).2.1 + (findLongestMatch a b).2.2 +
          (b.length - ((findLongestMatch a b).2.1 + (findLongestMatch a b).2.2)) = b.length
          by omega] at hright
      -- the middle block is a matching block between the two recursions
      have hmid : sliceIdx a (findLongestMatch a b).1
          ((findLongestMatch a b).1 + (findLongestMatch a b).2.2) =
          sliceIdx b (findLongestMatch a b).2.1
          ((findLongestMatch a b).2.1 + (findLongestMatch a b).2.2) := by
        simp only [sliceIdx]
        rw [show (findLongestMatch a b).1 + (findLongestMatch a b).2.2 -
            (findLongestMatch a b).1 = (findLongestMatch a b).2.2 by omega,
          show (findLongestMatch a b).2.1 + (findLongestMatch a b).2.2 -
            (findLongestMatch a b).2.1 = (findLongestMatch a b).2.2 by omega]
        exact h3
      exact blocksChainTo_append a b _ _ 0 0 (findLongestMatch a b).1
        (findLongestMatch a b).2.1 a.length b.length hleft
        ⟨Nat.le_refl _, Nat.le_refl _, h1, h2, hmid, hright⟩

theorem rawBlocks_chain [DecidableEq α] (a b : List α) :
    BlocksChainTo a b 0 0 (rawBlocks a b) a.length b.length :=
  rawBlocks_chain_aux (a.length + b.length) a b (Nat.le_refl _)

theorem collapseBlocks_chain_aux (a b : List α) :
    ∀ (n : Nat) (bs : List (Nat × Nat × Nat)), bs.length ≤ n →
      ∀ i j ei ej, BlocksChainTo a b i j bs ei ej →
        BlocksChainTo a b i j (collapseBlocks bs) ei ej := by
  intro n
  induction n with
  | zero =>
    intro bs hlen i j ei ej h
    have : bs = [] := List.length_eq_zero.mp (Nat.le_zero.mp hlen)
    subst this
    rw [collapseBlocks]
    exact h
  | succ n ih =>
    intro bs hlen i j ei ej h
    match bs, h with
    | [], h =>
      rw [collapseBlocks]
      exact h
    | [x], h =>
      rw [collapseBlocks]
      exact h
    | (xi, xj, xk) :: (yi, yj, yk) :: rest, h =>
      obtain ⟨h1, h2, h3, h4, h5, g1, g2, g3, g4, g5, hrest⟩ := h
      simp only at h1 h2 h3 h4 h5 g1 g2 g3 g4 g5
      rw [collapseBlocks]
      by_cases hadj : (xi, xj, xk).1 + (xi, xj, xk).2.2 = (yi, yj, yk).1 ∧
          (xi, xj, xk).2.1 + (xi, xj, xk).2.2 = (yi, yj, yk).2.1
      · rw [if_pos hadj]
        obtain ⟨ha1, ha2⟩ := hadj
        simp only at ha1 ha2
        apply ih _ (by simp at hlen ⊢; omega)
        have hslice : sliceIdx a xi (xi + (xk + yk)) = sliceIdx b xj (xj + (xk + yk)) := by
          rw [sliceIdx_decompose a xi (xi + xk) (xi + (xk + yk)) (by omega) (by omega),
            sliceIdx_decompose b xj (xj + xk) (xj + (xk + yk)) (by omega) (by omega), h5]
          congr 1
          rw [ha1, ha2, show xi + (xk + yk) = yi + yk by omega,
            show xj + (xk + yk) = yj + yk by omega]
          exact g5
        refine ⟨h1, h2, by dsimp only; omega, by dsimp only; omega, hslice, ?_⟩
        dsimp only
        rw [show xi + (xk + yk) = yi + yk by omega, show xj + (xk + yk) = yj + yk by omega]
        exact hrest
      · rw [if_neg hadj]
        refine ⟨h1, h2, h3, h4, h5, ?_⟩
        exact ih _ (by simp at hlen ⊢; omega) _ _ _ _ ⟨g1, g2, g3, g4, g5, hrest⟩

theorem collapseBlocks_chain (a b : List α) (bs : List (Nat × Nat × Nat))
    (i j ei ej : Nat) (h : BlocksChainTo a b i j bs ei ej) :
    BlocksChainTo a b i j (collapseBlocks bs) ei ej :=
  collapseBlocks_chain_aux a b bs.length bs (Nat.le_refl _) i j ei ej h

/-- The exact-ended version of the block chain: the last block is the
sentinel, leaving the cursor at `(a.length, b.length)`. -/
def BlocksChain (a b : List α) : Nat → Nat → List (Nat × Nat × Nat) → Prop
  | i, j, [] => i = a.length ∧ j = b.length
  | i, j, blk :: rest =>
    i ≤ blk.1 ∧ j ≤ blk.2.1 ∧ blk.1 + blk.2.2 ≤ a.length ∧ blk.2.1 + blk.2.2 ≤ b.length ∧
      sliceIdx a blk.1 (blk.1 + blk.2.2) = sliceIdx b blk.2.1 (blk.2.1 + blk.2.2) ∧
      BlocksChain a b (blk.1 + blk.2.2) (blk.2.1 + blk.2.2) rest

theorem blocksChain_of_chainTo_sentinel (a b : List α) (bs : List (Nat × Nat × Nat)) :
    ∀ i j, BlocksChainTo a b i j bs a.length b.length →
      BlocksChain a b i j (bs ++ [(a.length, b.length, 0)]) := by
  induction bs with
  | nil =>
    intro i j h
    exact ⟨h.1, h.2, by dsimp only; omega, by dsimp only; omega,
      by simp [sliceIdx_self], by dsimp only; exact ⟨rfl, rfl⟩⟩
  | cons blk rest ih =>
    intro i j h
    obtain ⟨h1, h2, h3, h4, h5, h6⟩ := h
    exact ⟨h1, h2, h3, h4, h5, ih _ _ h6⟩

theorem matchingBlocks_chain [DecidableEq α] (a b : List α) :
    BlocksChain a b 0 0 (matchingBlocks a b) :=
  blocksChain_of_chainTo_sentinel a b _ 0 0
    (collapseBlocks_chain a b _ 0 0 _ _ (rawBlocks_chain a b))

/-!
## Correctness of the opcode computation
-/

/-- The per-opcode facts: ranges are ordered and in bounds; an `equal`
opcode relates ranges of the same length with equal slices; `insert` has
an empty old range, `delete` an empty new range. -/
def OpFacts (a b : List α) (op : Opcode) : Prop :=
  op.i1 ≤ op.i2 ∧ op.j1 ≤ op.j2 ∧ op.i2 ≤ a.length ∧ op.j2 ≤ b.length ∧
    (op.tag = .equal →
      op.i2 - op.i1 = op.j2 - op.j1 ∧ sliceIdx a op.i1 op.i2 = sliceIdx b op.j1 op.j2) ∧
    (op.tag = .insert → op.i1 = op.i2) ∧
    (op.tag = .delete → op.j1 = op.j2)

/-- `OpsChain a b i j ops ei ej`: the opcodes `ops` tile the index space
contiguously from `(i, j)` to `(ei, ej)`, each satisfying `OpFacts`. -/
def OpsChain (a b : List α) : Nat → Nat → List Opcode → Nat → Nat → Prop
  | i, j, [], ei, ej => i = ei ∧ j = ej
  | i, j, op :: rest, ei, ej =>
    op.i1 = i ∧ op.j1 = j ∧ OpFacts a b op ∧ OpsChain a b op.i2 op.j2 rest ei ej

theorem opsChain_append (a b : List α) (l1 : List Opcode) :
    ∀ l2 i j m n ei ej, OpsChain a b i j l1 m n →
      OpsChain a b m n l2 ei ej → OpsChain a b i j (l1 ++ l2) ei ej := by
  induction l1 with
  | nil =>
    intro l2 i j m n ei ej h1 h2
    obtain ⟨rfl, rfl⟩ := h1
    exact h2
  | cons op rest ih =>
    intro l2 i j m n ei ej h1 h2
    obtain ⟨ha, hb, hc, hd⟩ := h1
    exact ⟨ha, hb, hc, ih l2 _ _ m n ei ej hd h2⟩

theorem opFacts_nonEqual (a b : List α) (t : DTag) (i1 i2 j1 j2 : Nat)
    (ht1 : t ≠ .equal) (ht2 : t = .insert → i1 = i2) (ht3 : t = .delete → j1 = j2)
    (h1 : i1 ≤ i2) (h2 : j1 ≤ j2) (h3 : i2 ≤ a.length) (h4 : j2 ≤ b.length) :
    OpFacts a b ⟨t, i1, i2, j1, j2⟩ := by
  refine ⟨h1, h2, h3, h4, ?_, ?_, ?_⟩
  · intro hcon
    exact absurd hcon ht1
  · exact ht2
  · exact ht3

theorem opFacts_equal (a b : List α) (i1 j1 size : Nat)
    (h3 : i1 + size ≤ a.length) (h4 : j1 + size ≤ b.length)
    (h5 : sliceIdx a i1 (i1 + size) = sliceIdx b j1 (j1 + size)) :
    OpFacts a b ⟨.equal, i1, i1 + size, j1, j1 + size⟩ := by
  refine ⟨by dsimp only; omega, by dsimp only; omega, h3, h4, ?_, ?_, ?_⟩
  · intro _
    exact ⟨by dsimp only; omega, h5⟩
  · intro hcon
    cases hcon
  · intro hcon
    cases hcon

theorem opsChain_single (a b : List α) (op : Opcode) (i j : Nat)
    (h1 : op.i1 = i) (h2 : op.j1 = j) (hf : OpFacts a b op) :
    OpsChain a b i j [op] op.i2 op.j2 :=
  ⟨h1, h2, hf, rfl, rfl⟩

theorem opcodesFrom_chain (a b : List α) :
    ∀ (bs : List (Nat × Nat × Nat)) (i j : Nat), BlocksChain a b i j bs →
      OpsChain a b i j (opcodesFrom i j bs) a.length b.length := by
  intro bs
  induction bs with
  | nil =>
    intro i j h
    exact h
  | cons blk rest ih =>
    obtain ⟨ai, bj, size⟩ := blk
    intro i j h
    obtain ⟨h1, h2, h3, h4, h5, h6⟩ := h
    simp only at h1 h2 h3 h4 h5 h6
    simp only [opcodesFrom]
    have hrec := ih (ai + size) (bj + size) h6
    have heqChain : OpsChain a b ai bj
        (if size ≠ 0 then [⟨.equal, ai, ai + size, bj, bj + size⟩] else [])
        (ai + size) (bj + size) := by
      by_cases hsz : size = 0
      · subst hsz
        simp only [ne_eq, not_true_eq_false, if_false]
        exact ⟨rfl, rfl⟩
      · rw [if_pos hsz]
        exact opsChain_single a b _ ai bj rfl rfl (opFacts_equal a b ai bj size h3 h4 h5)
    have hgapChain : OpsChain a b i j
        (if i < ai ∧ j < bj then [⟨.replace, i, ai, j, bj⟩]
          else if i < ai then [⟨.delete, i, ai, j, bj⟩]
          else if j < bj then [⟨.insert, i, ai, j, bj⟩]
          else []) ai bj := by
      by_cases hg1 : i < ai ∧ j < bj
      · rw [if_pos hg1]
        exact opsChain_single a b _ i j rfl rfl
          (opFacts_nonEqual a b .replace i ai j bj (by decide)
            (fun hcon => by cases hcon) (fun hcon => by cases hcon)
            (by omega) (by omega) (by omega) (by omega))
      · rw [if_neg hg1]
        by_cases hg2 : i < ai
        · rw [if_pos hg2]
          exact opsChain_single a b _ i j rfl rfl
            (opFacts_nonEqual a b .delete i ai j bj (by decide)
              (fun hcon => by cases hcon) (fun _ => by omega)
              (by omega) (by omega) (by omega) (by omega))
        · rw [if_neg hg2]
          by_cases hg3 : j < bj
          · rw [if_pos hg3]
            exact opsChain_single a b _ i j rfl rfl
              (opFacts_nonEqual a b .insert i ai j bj (by decide)
                (fun _ => by omega) (fun hcon => by cases hcon)
                (by omega) (by omega) (by omega) (by omega))
          · rw [if_neg hg3]
            exact ⟨by omega, by omega⟩
    exact opsChain_append a b _ _ i j (ai + size) (bj + size) a.length b.length
      (opsChain_append a b _ _ i j ai bj (ai + size) (bj + size) hgapChain heqChain) hrec

theorem getOpcodes_chain [DecidableEq α] (a b : List α) :
    OpsChain a b 0 0 (getOpcodes a b) a.length b.length :=
  opcodesFrom_chain a b _ 0 0 (matchingBlocks_chain a b)

theorem opsChain_mono (a b : List α) (ops : List Opcode) :
    ∀ i j ei ej, OpsChain a b i j ops ei ej → i ≤ ei ∧ j ≤ ej := by
  induction ops with
  | nil =>
    intro i j ei ej h
    obtain ⟨rfl, rfl⟩ := h
    exact ⟨Nat.le_refl _, Nat.le_refl _⟩
  | cons op rest ih =>
    intro i j ei ej h
    obtain ⟨h1, h2, hf, hrest⟩ := h
    have hm := ih _ _ _ _ hrest
    have hf1 := hf.1
    have hf2 := hf.2.1
    omega

theorem opsChain_end_le (a b : List α) (ops : List Opcode) :
    ∀ i j ei ej, OpsChain a b i j ops ei ej → i ≤ a.length → j ≤ b.length →
      ei ≤ a.length ∧ ej ≤ b.length := by
  induction ops with
  | nil =>
    intro i j ei ej h hi hj
    obtain ⟨rfl, rfl⟩ := h
    exact ⟨hi, hj⟩
  | cons op rest ih =>
    intro i j ei ej h hi hj
    obtain ⟨h1, h2, hf, hrest⟩ := h
    exact ih _ _ _ _ hrest hf.2.2.1 hf.2.2.2.1

theorem opsChain_getLastD (a b : List α) (ops : List Opcode) :
    ∀ i j ei ej, OpsChain a b i j ops ei ej → ops ≠ [] →
      (ops.getLastD defaultOp).i2 = ei ∧ (ops.getLastD defaultOp).j2 = ej := by
  induction ops with
  | nil =>
    intro i j ei ej h hne
    exact absurd rfl hne
  | cons op rest ih =>
    intro i j ei ej h hne
    obtain ⟨h1, h2, hf, hrest⟩ := h
    cases rest with
    | nil =>
      obtain ⟨rfl, rfl⟩ := hrest
      simp [List.getLastD]
    | cons op2 rest2 =>
      have := ih _ _ _ _ hrest (by simp)
      simpa [List.getLastD] using this

/-!
## Correctness of the grouping computation

`SkipEq a b i j i' j'` says the stretch `[i, i')` of `a` equals the
stretch `[j, j')` of `b` — the content that grouping is allowed to skip.
`GroupsChain` threads the groups through such skips.
-/

def SkipEq (a b : List α) (i j i' j' : Nat) : Prop :=
  i ≤ i' ∧ j ≤ j' ∧ i' ≤ a.length ∧ j' ≤ b.length ∧ i' - i = j' - j ∧
    sliceIdx a i i' = sliceIdx b j j'

theorem skipEq_refl (a b : List α) (i j : Nat) (h1 : i ≤ a.length) (h2 : j ≤ b.length) :
    SkipEq a b i j i j :=
  ⟨Nat.le_refl _, Nat.le_refl _, h1, h2, by omega, by rw [sliceIdx_self, sliceIdx_self]⟩

theorem skipEq_trans (a b : List α) (i j m n e f : Nat)
    (h1 : SkipEq a b i j m n) (h2 : SkipEq a b m n e f) : SkipEq a b i j e f := by
  obtain ⟨a1, a2, a3, a4, a5, a6⟩ := h1
  obtain ⟨b1, b2, b3, b4, b5, b6⟩ := h2
  refine ⟨by omega, by omega, b3, b4, by omega, ?_⟩
  rw [sliceIdx_decompose a i m e a1 b1, sliceIdx_decompose b j n f a2 b2, a6, b6]

/-- Matching sub-stretches of an equal opcode's ranges, described by
offsets `d1 ≤ d2` from the range starts. -/
theorem skipEq_offsets (a b : List α) (i1 i2 j1 j2 d1 d2 : Nat)
    (hlen : i2 - i1 = j2 - j1) (h1 : i1 ≤ i2) (h2 : j1 ≤ j2)
    (hb1 : i2 ≤ a.length) (hb2 : j2 ≤ b.length)
    (hsl : sliceIdx a i1 i2 = sliceIdx b j1 j2)
    (hd1 : d1 ≤ d2) (hd2 : d2 ≤ i2 - i1) :
    SkipEq a b (i1 + d1) (j1 + d1) (i1 + d2) (j1 + d2) := by
  refine ⟨by omega, by omega, by omega, by omega, by omega, ?_⟩
  have ha : sliceIdx a (i1 + d1) (i1 + d2) = ((sliceIdx a i1 i2).drop d1).take (d2 - d1) := by
    rw [drop_sliceIdx, take_sliceIdx]
    congr 1
    omega
  have hb : sliceIdx b (j1 + d1) (j1 + d2) = ((sliceIdx b j1 j2).drop d1).take (d2 - d1) := by
    rw [drop_sliceIdx, take_sliceIdx]
    congr 1
    omega
  rw [ha, hb, hsl]

def GroupsChain (a b : List α) : Nat → Nat → List (List Opcode) → Nat → Nat → Prop
  | i, j, [], ei, ej => SkipEq a b i j ei ej
  | i, j, g :: gs, ei, ej =>
    ∃ si sj mi mj, SkipEq a b i j si sj ∧ g ≠ [] ∧
      OpsChain a b si sj g mi mj ∧ GroupsChain a b mi mj gs ei ej

theorem groupsChain_weaken_front (a b : List α) (gs : List (List Opcode))
    (i j i' j' ei ej : Nat) (hs : SkipEq a b i j i' j')
    (h : GroupsChain a b i' j' gs ei ej) : GroupsChain a b i j gs ei ej := by
  cases gs with
  | nil => exact skipEq_trans a b i j i' j' ei ej hs h
  | cons g rest =>
    obtain ⟨si, sj, mi, mj, hskip, hne, hchain, hrest⟩ := h
    exact ⟨si, sj, mi, mj, skipEq_trans a b i j i' j' si sj hs hskip, hne, hchain, hrest⟩

/-- The facts for an `equal` opcode carved out of the ranges of a wider
`equal` opcode by offsets `d1 ≤ d2`. -/
theorem opFacts_equal_sub (a b : List α) (i1 i2 j1 j2 : Nat)
    (hlen : i2 - i1 = j2 - j1) (h1 : i1 ≤ i2) (h2 : j1 ≤ j2)
    (hb1 : i2 ≤ a.length) (hb2 : j2 ≤ b.length)
    (hsl : sliceIdx a i1 i2 = sliceIdx b j1 j2)
    (d1 d2 x1 x2 y1 y2 : Nat) (hd1 : d1 ≤ d2) (hd2 : d2 ≤ i2 - i1)
    (hx1 : x1 = i1 + d1) (hx2 : x2 = i1 + d2)
    (hy1 : y1 = j1 + d1) (hy2 : y2 = j1 + d2) :
    OpFacts a b ⟨.equal, x1, x2, y1, y2⟩ := by
  subst hx1
  subst hx2
  subst hy1
  subst hy2
  obtain ⟨s1, s2, s3, s4, s5, s6⟩ :=
    skipEq_offsets a b i1 i2 j1 j2 d1 d2 hlen h1 h2 hb1 hb2 hsl hd1 hd2
  refine ⟨by dsimp only; omega, by dsimp only; omega, by dsimp only; omega,
    by dsimp only; omega, ?_, ?_, ?_⟩
  · intro _
    exact ⟨by dsimp only; omega, s6⟩
  · intro hcon
    cases hcon
  · intro hcon
    cases hcon

theorem loopGroups_chain (a b : List α) (n : Nat) :
    ∀ (rest group : List Opcode) (si sj ci cj ei ej : Nat),
      OpsChain a b si sj group ci cj →
      OpsChain a b ci cj rest ei ej →
      si ≤ a.length → sj ≤ b.length → ei ≤ a.length → ej ≤ b.length →
      GroupsChain a b si sj (loopGroups n group rest) ei ej := by
  intro rest
  induction rest with
  | nil =>
    intro group si sj ci cj ei ej hg hr hsa hsb hea heb
    obtain ⟨hq1, hq2⟩ := hr
    match group, hg with
    | [], hg =>
      obtain ⟨h1, h2⟩ := hg
      rw [loopGroups]
      have e1 : si = ei := h1.trans hq1
      have e2 : sj = ej := h2.trans hq2
      rw [← e1, ← e2]
      exact skipEq_refl a b si sj hsa hsb
    | [op], hg =>
      obtain ⟨hh1, hh2, hf, he1, he2⟩ := hg
      rw [loopGroups]
      by_cases heq : op.tag = DTag.equal
      · rw [if_pos heq]
        obtain ⟨f1, f2, f3, f4, f5, -, -⟩ := hf
        obtain ⟨hlen, hsl⟩ := f5 heq
        have hsk := skipEq_offsets a b op.i1 op.i2 op.j1 op.j2 0 (op.i2 - op.i1)
          hlen f1 f2 f3 f4 hsl (by omega) (by omega)
        rw [show op.i1 + 0 = op.i1 by omega, show op.j1 + 0 = op.j1 by omega,
          show op.i1 + (op.i2 - op.i1) = op.i2 by omega,
          show op.j1 + (op.i2 - op.i1) = op.j2 by omega] at hsk
        rw [hh1, hh2, he1.trans hq1, he2.trans hq2] at hsk
        exact hsk
      · rw [if_neg heq]
        refine ⟨si, sj, op.i2, op.j2, skipEq_refl a b si sj hsa hsb, by simp,
          ⟨hh1, hh2, hf, rfl, rfl⟩, ?_⟩
        rw [he1.trans hq1, he2.trans hq2]
        exact skipEq_refl a b ei ej hea heb
    | op1 :: op2 :: grest, hg =>
      refine ⟨si, sj, ci, cj, skipEq_refl a b si sj hsa hsb, by simp, hg, ?_⟩
      rw [hq1, hq2]
      exact skipEq_refl a b ei ej hea heb
  | cons op rest ih =>
    intro group si sj ci cj ei ej hg hr hsa hsb hea heb
    obtain ⟨hh1, hh2, hf, hrest⟩ := hr
    rw [loopGroups]
    by_cases hsplit : op.tag = DTag.equal ∧ n + n < op.i2 - op.i1
    · rw [if_pos hsplit]
      obtain ⟨heq, hwide⟩ := hsplit
      obtain ⟨f1, f2, f3, f4, f5, -, -⟩ := hf
      obtain ⟨hlen, hsl⟩ := f5 heq
      -- the left context piece completes the current group
      have hleft : OpsChain a b si sj
          (group ++ [⟨.equal, op.i1, min op.i2 (op.i1 + n), op.j1, min op.j2 (op.j1 + n)⟩])
          (op.i1 + n) (op.j1 + n) := by
        apply opsChain_append a b group _ si sj ci cj _ _ hg
        refine ⟨by dsimp only; omega, by dsimp only; omega, ?_,
          by dsimp only; omega, by dsimp only; omega⟩
        exact opFacts_equal_sub a b op.i1 op.i2 op.j1 op.j2 hlen f1 f2 f3 f4 hsl
          0 n _ _ _ _ (by omega) (by omega) (by omega) (by omega) (by omega) (by omega)
      -- the right context piece begins the next group
      have hright : OpsChain a b (max op.i1 (op.i2 - n)) (max op.j1 (op.j2 - n))
          [⟨.equal, max op.i1 (op.i2 - n), op.i2, max op.j1 (op.j2 - n), op.j2⟩]
          op.i2 op.j2 := by
        refine ⟨rfl, rfl, ?_, rfl, rfl⟩
        exact opFacts_equal_sub a b op.i1 op.i2 op.j1 op.j2 hlen f1 f2 f3 f4 hsl
          (op.i2 - op.i1 - n) (op.i2 - op.i1) _ _ _ _ (by omega) (by omega)
          (by omega) (by omega) (by omega) (by omega)
      have hIH := ih [⟨.equal, max op.i1 (op.i2 - n), op.i2, max op.j1 (op.j2 - n), op.j2⟩]
        (max op.i1 (op.i2 - n)) (max op.j1 (op.j2 - n)) op.i2 op.j2 ei ej
        hright hrest (by omega) (by omega) hea heb
      -- the skipped middle of the wide equal opcode
      have hmid : SkipEq a b (op.i1 + n) (op.j1 + n)
          (max op.i1 (op.i2 - n)) (max op.j1 (op.j2 - n)) := by
        have hsk := skipEq_offsets a b op.i1 op.i2 op.j1 op.j2 n (op.i2 - op.i1 - n)
          hlen f1 f2 f3 f4 hsl (by omega) (by omega)
        rw [show op.i1 + (op.i2 - op.i1 - n) = max op.i1 (op.i2 - n) by omega,
          show op.j1 + (op.i2 - op.i1 - n) = max op.j1 (op.j2 - n) by omega] at hsk
        exact hsk
      exact ⟨si, sj, op.i1 + n, op.j1 + n, skipEq_refl a b si sj hsa hsb, by simp,
        hleft, groupsChain_weaken_front a b _ _ _ _ _ ei ej hmid hIH⟩
    · rw [if_neg hsplit]
      exact ih (group ++ [op]) si sj op.i2 op.j2 ei ej
        (opsChain_append a b group [op] si sj ci cj op.i2 op.j2 hg
          ⟨hh1, hh2, hf, rfl, rfl⟩) hrest hsa hsb hea heb

theorem groupsChain_extend_end (a b : List α) (gs : List (List Opcode)) :
    ∀ i j ei ej ei' ej', GroupsChain a b i j gs ei ej → SkipEq a b ei ej ei' ej' →
      GroupsChain a b i j gs ei' ej' := by
  induction gs with
  | nil =>
    intro i j ei ej ei' ej' h hs
    exact skipEq_trans a b i j ei ej ei' ej' h hs
  | cons g rest ih =>
    intro i j ei ej ei' ej' h hs
    obtain ⟨si, sj, mi, mj, hskip, hne, hchain, hrest⟩ := h
    exact ⟨si, sj, mi, mj, hskip, hne, hchain, ih _ _ _ _ _ _ hrest hs⟩

theorem trimHead_chain (a b : List α) (n : Nat) (codes : List Opcode)
    (i j ei ej : Nat) (h : OpsChain a b i j codes ei ej)
    (hi : i ≤ a.length) (hj : j ≤ b.length) :
    ∃ i' j', SkipEq a b i j i' j' ∧ OpsChain a b i' j' (trimHead n codes) ei ej := by
  cases codes with
  | nil => exact ⟨i, j, skipEq_refl a b i j hi hj, h⟩
  | cons op rest =>
    obtain ⟨hh1, hh2, hf, hrest⟩ := h
    rw [trimHead]
    by_cases heq : op.tag = DTag.equal
    · rw [if_pos heq]
      obtain ⟨f1, f2, f3, f4, f5, -, -⟩ := hf
      obtain ⟨hlen, hsl⟩ := f5 heq
      refine ⟨max op.i1 (op.i2 - n), max op.j1 (op.j2 - n), ?_, ?_⟩
      · have hsk := skipEq_offsets a b op.i1 op.i2 op.j1 op.j2 0
          (op.i2 - op.i1 - min (op.i2 - op.i1) n) hlen f1 f2 f3 f4 hsl
          (by omega) (by omega)
        rw [show op.i1 + 0 = op.i1 by omega, show op.j1 + 0 = op.j1 by omega,
          show op.i1 + (op.i2 - op.i1 - min (op.i2 - op.i1) n) = max op.i1 (op.i2 - n)
            by omega,
          show op.j1 + (op.i2 - op.i1 - min (op.i2 - op.i1) n) = max op.j1 (op.j2 - n)
            by omega] at hsk
        rw [← hh1, ← hh2]
        exact hsk
      · refine ⟨rfl, rfl, ?_, hrest⟩
        exact opFacts_equal_sub a b op.i1 op.i2 op.j1 op.j2 hlen f1 f2 f3 f4 hsl
          (op.i2 - op.i1 - min (op.i2 - op.i1) n) (op.i2 - op.i1) _ _ _ _
          (by omega) (by omega) (by omega) (by omega) (by omega) (by omega)
    · rw [if_neg heq]
      exact ⟨i, j, skipEq_refl a b i j hi hj, hh1, hh2,
        ⟨hf.1, hf.2.1, hf.2.2.1, hf.2.2.2.1, hf.2.2.2.2.1, hf.2.2.2.2.2.1,
          hf.2.2.2.2.2.2⟩, hrest⟩

theorem trimTail_chain (a b : List α) (n : Nat) (codes : List Opcode) :
    ∀ i j ei ej, OpsChain a b i j codes ei ej → i ≤ a.length → j ≤ b.length →
      ∃ e' f', OpsChain a b i j (trimTail n codes) e' f' ∧ SkipEq a b e' f' ei ej := by
  induction codes with
  | nil =>
    intro i j ei ej h hi hj
    obtain ⟨rfl, rfl⟩ := h
    exact ⟨i, j, ⟨rfl, rfl⟩, skipEq_refl a b i j hi hj⟩
  | cons op rest ih =>
    intro i j ei ej h hi hj
    obtain ⟨hh1, hh2, hf, hrest⟩ := h
    cases rest with
    | nil =>
      obtain ⟨he1, he2⟩ := hrest
      rw [trimTail]
      by_cases heq : op.tag = DTag.equal
      · rw [if_pos heq]
        obtain ⟨f1, f2, f3, f4, f5, -, -⟩ := hf
        obtain ⟨hlen, hsl⟩ := f5 heq
        refine ⟨min op.i2 (op.i1 + n), min op.j2 (op.j1 + n), ?_, ?_⟩
        · refine ⟨hh1, hh2, ?_, rfl, rfl⟩
          exact opFacts_equal_sub a b op.i1 op.i2 op.j1 op.j2 hlen f1 f2 f3 f4 hsl
            0 (min (op.i2 - op.i1) n) _ _ _ _ (by omega) (by omega)
            (by omega) (by omega) (by omega) (by omega)
        · have hsk := skipEq_offsets a b op.i1 op.i2 op.j1 op.j2
            (min (op.i2 - op.i1) n) (op.i2 - op.i1) hlen f1 f2 f3 f4 hsl
            (by omega) (by omega)
          rw [show op.i1 + min (op.i2 - op.i1) n = min op.i2 (op.i1 + n) by omega,
            show op.j1 + min (op.i2 - op.i1) n = min op.j2 (op.j1 + n) by omega,
            show op.i1 + (op.i2 - op.i1) = op.i2 by omega,
            show op.j1 + (op.i2 - op.i1) = op.j2 by omega] at hsk
          rw [← he1, ← he2]
          exact hsk
      · rw [if_neg heq]
        refine ⟨ei, ej, ⟨hh1, hh2, ?_, ?_, ?_⟩, ?_⟩
        · exact ⟨hf.1, hf.2.1, hf.2.2.1, hf.2.2.2.1, hf.2.2.2.2.1, hf.2.2.2.2.2.1,
            hf.2.2.2.2.2.2⟩
        · exact he1
        · exact he2
        · refine skipEq_refl a b ei ej ?_ ?_
          · rw [← he1]
            exact hf.2.2.1
          · rw [← he2]
            exact hf.2.2.2.1
    | cons op2 rest2 =>
      obtain ⟨e', f', hchain, hskip⟩ := ih op.i2 op.j2 ei ej hrest hf.2.2.1 hf.2.2.2.1
      exact ⟨e', f', ⟨hh1, hh2, ⟨hf.1, hf.2.1, hf.2.2.1, hf.2.2.2.1, hf.2.2.2.2.1,
        hf.2.2.2.2.2.1, hf.2.2.2.2.2.2⟩, hchain⟩, hskip⟩

theorem getOpcodes_nil [DecidableEq α] : getOpcodes ([] : List α) [] = [] := by
  have hflm : findLongestMatch ([] : List α) [] = (0, 0, 0) := rfl
  have hraw : rawBlocks ([] : List α) [] = [] := by
    rw [rawBlocks]
    rw [dif_pos (by rw [hflm])]
  rw [getOpcodes, matchingBlocks, hraw, collapseBlocks]
  simp [opcodesFrom]

/-- The central structural theorem about the grouping pipeline: the
grouped opcodes of any two line lists tile them into matched skips and
well-formed groups. -/
theorem groupedOpcodes_chain [DecidableEq α] (a b : List α) :
    GroupsChain a b 0 0 (groupedOpcodes 1 (getOpcodes a b)) a.length b.length := by
  have hchain := getOpcodes_chain a b
  rw [groupedOpcodes]
  by_cases hnil : getOpcodes a b = []
  · rw [hnil] at hchain ⊢
    obtain ⟨h1, h2⟩ := hchain
    have ha : a = [] := List.length_eq_zero.mp h1.symm
    have hb : b = [] := List.length_eq_zero.mp h2.symm
    subst ha
    subst hb
    exact skipEq_refl _ _ 0 0 (by simp) (by simp)
  · rw [if_neg (by simpa [List.isEmpty_iff] using hnil)]
    obtain ⟨i', j', hskip1, hchain2⟩ :=
      trimHead_chain a b 1 (getOpcodes a b) 0 0 a.length b.length hchain
        (Nat.zero_le _) (Nat.zero_le _)
    obtain ⟨e', f', hchain3, hskip2⟩ :=
      trimTail_chain a b 1 (trimHead 1 (getOpcodes a b)) i' j' a.length b.length
        hchain2 hskip1.2.2.1 hskip1.2.2.2.1
    have hloop := loopGroups_chain a b 1 (trimTail 1 (trimHead 1 (getOpcodes a b))) []
      i' j' i' j' e' f' ⟨rfl, rfl⟩ hchain3 hskip1.2.2.1 hskip1.2.2.2.1
      (by have h1 := hskip2.1; have h2 := hskip2.2.2.1; omega)
      (by have h1 := hskip2.2.1; have h2 := hskip2.2.2.2.1; omega)
    exact groupsChain_weaken_front a b _ 0 0 i' j' a.length b.length hskip1
      (groupsChain_extend_end a b _ i' j' e' f' a.length b.length hloop hskip2)

/-!
## From groups to hunks
-/

/-- The old-side lines an opcode contributes to a hunk. -/
def opOlds (a : List Str) (op : Opcode) : List Str :=
  match op.tag with
  | .insert => []
  | _ => sliceIdx a op.i1 op.i2

/-- The new-side lines an opcode contributes to a hunk. -/
def opNews (a b : List Str) (op : Opcode) : List Str :=
  match op.tag with
  | .equal => sliceIdx a op.i1 op.i2
  | .delete => []
  | _ => sliceIdx b op.j1 op.j2

/-- The hunk a group denotes. -/
def semHunk (a b : List Str) (g : List Opcode) : Hunk :=
  ⟨(g.headD defaultOp).i1, (g.map (opOlds a)).flatten, (g.map (opNews a b)).flatten⟩

theorem opOlds_eq (a b : List Str) (op : Opcode) (hf : OpFacts a b op) :
    opOlds a op = sliceIdx a op.i1 op.i2 := by
  rw [opOlds]
  split
  · next heq =>
    rw [hf.2.2.2.2.2.1 heq, sliceIdx_self]
  · rfl

theorem opNews_eq (a b : List Str) (op : Opcode) (hf : OpFacts a b op) :
    opNews a b op = sliceIdx b op.j1 op.j2 := by
  rw [opNews]
  split
  · next heq => exact (hf.2.2.2.2.1 heq).2
  · next heq => rw [hf.2.2.2.2.2.2 heq, sliceIdx_self]
  · rfl

theorem opsChain_olds (a b : List Str) (g : List Opcode) :
    ∀ si sj mi mj, OpsChain a b si sj g mi mj →
      (g.map (opOlds a)).flatten = sliceIdx a si mi := by
  induction g with
  | nil =>
    intro si sj mi mj h
    obtain ⟨rfl, rfl⟩ := h
    rw [sliceIdx_self]
    rfl
  | cons op rest ih =>
    intro si sj mi mj h
    obtain ⟨hh1, hh2, hf, hrest⟩ := h
    have hmono := opsChain_mono a b rest _ _ _ _ hrest
    simp only [List.map_cons, List.flatten_cons]
    rw [opOlds_eq a b op hf, ih _ _ _ _ hrest, ← hh1,
      ← sliceIdx_decompose a op.i1 op.i2 mi hf.1 hmono.1]

theorem opsChain_news (a b : List Str) (g : List Opcode) :
    ∀ si sj mi mj, OpsChain a b si sj g mi mj →
      (g.map (opNews a b)).flatten = sliceIdx b sj mj := by
  induction g with
  | nil =>
    intro si sj mi mj h
    obtain ⟨rfl, rfl⟩ := h
    rw [sliceIdx_self]
    rfl
  | cons op rest ih =>
    intro si sj mi mj h
    obtain ⟨hh1, hh2, hf, hrest⟩ := h
    have hmono := opsChain_mono a b rest _ _ _ _ hrest
    simp only [List.map_cons, List.flatten_cons]
    rw [opNews_eq a b op hf, ih _ _ _ _ hrest, ← hh2,
      ← sliceIdx_decompose b op.j1 op.j2 mj hf.2.1 hmono.2]

theorem semHunk_eq (a b : List Str) (g : List Opcode) (si sj mi mj : Nat)
    (hne : g ≠ []) (h : OpsChain a b si sj g mi mj) :
    semHunk a b g = ⟨si, sliceIdx a si mi, sliceIdx b sj mj⟩ := by
  rw [semHunk, opsChain_olds a b g si sj mi mj h, opsChain_news a b g si sj mi mj h]
  cases g with
  | nil => exact absurd rfl hne
  | cons op rest =>
    obtain ⟨hh1, -, -, -⟩ := h
    simp [List.headD, hh1]

/-- Applying the semantic hunks of a group chain reconstructs `b`. -/
theorem groupsChain_apply (a b : List Str) (gs : List (List Opcode)) :
    ∀ i j, GroupsChain a b i j gs a.length b.length →
      applyHunks a i (gs.map (semHunk a b)) = some (b.drop j) := by
  induction gs with
  | nil =>
    intro i j h
    obtain ⟨h1, h2, h3, h4, h5, h6⟩ := h
    rw [List.map_nil, applyHunks]
    rw [← sliceIdx_eq_drop a i, ← sliceIdx_eq_drop b j, h6]
  | cons g gs ih =>
    intro i j h
    obtain ⟨si, sj, mi, mj, hskip, hne, hchain, hrest⟩ := h
    have hmono := opsChain_mono a b g _ _ _ _ hchain
    have hends := opsChain_end_le a b g _ _ _ _ hchain hskip.2.2.1 hskip.2.2.2.1
    rw [List.map_cons, semHunk_eq a b g si sj mi mj hne hchain, applyHunks]
    have holds : (sliceIdx a si mi).length = mi - si :=
      sliceIdx_length a si mi hmono.1 hends.1
    rw [if_pos]
    · dsimp only
      rw [holds, show si + (mi - si) = mi by omega, ih mi mj hrest]
      show some (sliceIdx a i si ++ sliceIdx b sj mj ++ b.drop mj) = some (b.drop j)
      congr 1
      rw [drop_decompose b j sj hskip.2.1, drop_decompose b sj mj hmono.2,
        ← hskip.2.2.2.2.2]
      simp [List.append_assoc]
    · dsimp only
      refine ⟨hskip.1, ?_, ?_⟩
      · rw [holds]
        omega
      · rw [holds, show si + (mi - si) = mi by omega]

/-!
## Decimal formatting round-trip
-/

theorem digitVal_digitCh (d : Nat) (h : d < 10) : digitVal (digitCh d) = d := by
  interval_cases d <;> rfl

theorem isDigitCh_digitCh (d : Nat) (h : d < 10) : isDigitCh (digitCh d) = true := by
  interval_cases d <;> rfl

theorem natToStr_all_digits (n : Nat) : ∀ c ∈ natToStr n, isDigitCh c = true := by
  intro c hc
  rw [natToStr] at hc
  split at hc
  · simp only [List.mem_singleton] at hc
    subst hc
    rfl
  · rw [List.mem_reverse, List.mem_map] at hc
    obtain ⟨d, hd, rfl⟩ := hc
    exact isDigitCh_digitCh d (Nat.digits_lt_base (by norm_num) hd)

theorem natToStr_ne_nil (n : Nat) : natToStr n ≠ [] := by
  rw [natToStr]
  split
  · simp
  · next h =>
    simp only [ne_eq, List.reverse_eq_nil_iff, List.map_eq_nil_iff]
    exact Nat.digits_ne_nil_iff_ne_zero.mpr h

theorem foldl_digits_eq (ds : List Nat) :
    ∀ acc, (∀ d ∈ ds, d < 10) →
      ((ds.map digitCh).reverse).foldl (fun a c => a * 10 + digitVal c) acc =
        acc * 10 ^ ds.length + Nat.ofDigits 10 ds := by
  induction ds with
  | nil =>
    intro acc h
    simp [Nat.ofDigits]
  | cons d ds ih =>
    intro acc h
    simp only [List.map_cons, List.reverse_cons, List.foldl_append, List.foldl_cons,
      List.foldl_nil]
    rw [ih acc (fun x hx => h x (List.mem_cons_of_mem d hx)),
      digitVal_digitCh d (h d (List.mem_cons_self d ds)), Nat.ofDigits_cons]
    simp only [List.length_cons]
    ring

theorem strToNatD_natToStr (n : Nat) : strToNatD (natToStr n) = n := by
  rw [natToStr, strToNatD]
  split
  · next h =>
    subst h
    rfl
  · rw [foldl_digits_eq (Nat.digits 10 n) 0
      (fun d hd => Nat.digits_lt_base (by norm_num) hd)]
    simp [Nat.ofDigits_digits]

/-!
## List scanning helpers for the patch parser
-/

theorem takeWhile_append_all (q : α → Bool) (p : List α) (r : List α)
    (h : ∀ x ∈ p, q x = true) : (p ++ r).takeWhile q = p ++ r.takeWhile q := by
  induction p with
  | nil => simp
  | cons x xs ih =>
    simp only [List.cons_append, List.takeWhile_cons, h x (List.mem_cons_self x xs),
      if_true]
    rw [ih (fun y hy => h y (List.mem_cons_of_mem x hy))]

theorem dropWhile_append_all (q : α → Bool) (p : List α) (r : List α)
    (h : ∀ x ∈ p, q x = true) : (p ++ r).dropWhile q = r.dropWhile q := by
  induction p with
  | nil => simp
  | cons x xs ih =>
    simp only [List.cons_append, List.dropWhile_cons, h x (List.mem_cons_self x xs),
      if_true]
    exact ih (fun y hy => h y (List.mem_cons_of_mem x hy))

theorem takeWhile_stop (q : α → Bool) (r : List α)
    (h : r = [] ∨ ∃ x t, r = x :: t ∧ q x = false) : r.takeWhile q = [] := by
  rcases h with rfl | ⟨x, t, rfl, hx⟩
  · rfl
  · simp [List.takeWhile_cons, hx]

theorem dropWhile_stop (q : α → Bool) (r : List α)
    (h : r = [] ∨ ∃ x t, r = x :: t ∧ q x = false) : r.dropWhile q = r := by
  rcases h with rfl | ⟨x, t, rfl, hx⟩
  · rfl
  · simp [List.dropWhile_cons, hx]

theorem isPrefixOf_append_self [BEq α] [LawfulBEq α] (p x : List α) :
    p.isPrefixOf (p ++ x) = true := by
  induction p with
  | nil => simp [List.isPrefixOf]
  | cons c cs ih => simp [List.isPrefixOf, ih]

/-!
## Inverting the hunk formatting
-/

theorem isHunkHeader_cons_false (c : Char) (r : Str) (h : c ≠ '@') :
    isHunkHeader (c :: r) = false := by
  rw [isHunkHeader, show strL "@@ -" = '@' :: strL "@ -" from rfl, List.isPrefixOf]
  simp only [Bool.and_eq_false_iff]
  left
  simpa using fun hcon => absurd hcon.symm h

theorem isHunkHeader_append_true (x : Str) :
    isHunkHeader (strL "@@ -" ++ x) = true := by
  rw [isHunkHeader]
  exact isPrefixOf_append_self _ _

theorem strToNatD_takeWhile (m : Nat) (c : Char) (r : Str) (hc : isDigitCh c = false) :
    strToNatD ((natToStr m ++ c :: r).takeWhile isDigitCh) = m := by
  rw [takeWhile_append_all isDigitCh _ _ (natToStr_all_digits _),
    takeWhile_stop isDigitCh _ (Or.inr ⟨c, r, rfl, hc⟩), List.append_nil,
    strToNatD_natToStr]

theorem headerOldStart_format (si mi sj mj : Nat) :
    headerOldStart (strL "@@ -" ++ formatRangeUnified si mi ++ strL " +" ++
      formatRangeUnified sj mj ++ strL " @@") =
      (if mi - si = 0 then si else si + 1) := by
  rw [headerOldStart]
  have hdrop : (strL "@@ -" ++ formatRangeUnified si mi ++ strL " +" ++
      formatRangeUnified sj mj ++ strL " @@").drop 4 =
      formatRangeUnified si mi ++ (strL " +" ++ (formatRangeUnified sj mj ++ strL " @@")) := by
    simp only [List.append_assoc]
    rw [show (4 : Nat) = (strL "@@ -").length from rfl, List.drop_left]
  rw [hdrop,
    show strL " +" ++ (formatRangeUnified sj mj ++ strL " @@") =
      ' ' :: ('+' :: (formatRangeUnified sj mj ++ strL " @@")) from rfl]
  rw [show formatRangeUnified si mi =
      (if mi - si = 1 then natToStr (si + 1)
        else natToStr (if mi - si = 0 then si + 1 - 1 else si + 1) ++
          ',' :: natToStr (mi - si)) from rfl]
  by_cases hone : mi - si = 1
  · rw [if_pos hone, strToNatD_takeWhile _ ' ' _ rfl, if_neg (by omega)]
  · rw [if_neg hone, List.append_assoc, List.cons_append,
      strToNatD_takeWhile _ ',' _ rfl]
    by_cases hz : mi - si = 0
    · rw [if_pos hz, if_pos hz]
      omega
    · rw [if_neg hz, if_neg hz]

theorem collectOlds_space_map (xs : List Str) :
    collectOlds (xs.map (fun l => ' ' :: l)) = xs := by
  induction xs with
  | nil => rfl
  | cons x xs ih => simp [collectOlds, List.filterMap_cons] at ih ⊢; exact ih

theorem collectOlds_minus_map (xs : List Str) :
    collectOlds (xs.map (fun l => '-' :: l)) = xs := by
  induction xs with
  | nil => rfl
  | cons x xs ih => simp [collectOlds, List.filterMap_cons] at ih ⊢; exact ih

theorem collectOlds_plus_map (xs : List Str) :
    collectOlds (xs.map (fun l => '+' :: l)) = [] := by
  induction xs with
  | nil => rfl
  | cons x xs ih => simp [collectOlds, List.filterMap_cons] at ih ⊢

theorem collectNews_space_map (xs : List Str) :
    collectNews (xs.map (fun l => ' ' :: l)) = xs := by
  induction xs with
  | nil => rfl
  | cons x xs ih => simp [collectNews, List.filterMap_cons] at ih ⊢; exact ih

theorem collectNews_minus_map (xs : List Str) :
    collectNews (xs.map (fun l => '-' :: l)) = [] := by
  induction xs with
  | nil => rfl
  | cons x xs ih => simp [collectNews, List.filterMap_cons] at ih ⊢

theorem collectNews_plus_map (xs : List Str) :
    collectNews (xs.map (fun l => '+' :: l)) = xs := by
  induction xs with
  | nil => rfl
  | cons x xs ih => simp [collectNews, List.filterMap_cons] at ih ⊢; exact ih

theorem collectOlds_append (l1 l2 : List Str) :
    collectOlds (l1 ++ l2) = collectOlds l1 ++ collectOlds l2 :=
  List.filterMap_append l1 l2 _

theorem collectNews_append (l1 l2 : List Str) :
    collectNews (l1 ++ l2) = collectNews l1 ++ collectNews l2 :=
  List.filterMap_append l1 l2 _

theorem collectOlds_opLines (a b : List Str) (op : Opcode) :
    collectOlds (opLines a b op) = opOlds a op := by
  rw [opLines, opOlds]
  cases op.tag with
  | equal => exact collectOlds_space_map _
  | replace => rw [collectOlds_append, collectOlds_minus_map, collectOlds_plus_map, List.append_nil]
  | delete => exact collectOlds_minus_map _
  | insert => exact collectOlds_plus_map _

theorem collectNews_opLines (a b : List Str) (op : Opcode) :
    collectNews (opLines a b op) = opNews a b op := by
  rw [opLines, opNews]
  cases op.tag with
  | equal => exact collectNews_space_map _
  | replace => rw [collectNews_append, collectNews_minus_map, collectNews_plus_map, List.nil_append]
  | delete => exact collectNews_minus_map _
  | insert => exact collectNews_plus_map _

theorem opLines_not_header (a b : List Str) (op : Opcode) :
    ∀ l ∈ opLines a b op, isHunkHeader l = false := by
  obtain ⟨tag, i1, i2, j1, j2⟩ := op
  intro l hl
  rw [opLines] at hl
  dsimp only at hl
  have hshape : (∃ r, l = ' ' :: r) ∨ (∃ r, l = '-' :: r) ∨ (∃ r, l = '+' :: r) := by
    cases tag with
    | equal =>
      obtain ⟨r, -, rfl⟩ := List.mem_map.mp hl
      exact Or.inl ⟨r, rfl⟩
    | replace =>
      rcases List.mem_append.mp hl with hm | hm
      · obtain ⟨r, -, rfl⟩ := List.mem_map.mp hm
        exact Or.inr (Or.inl ⟨r, rfl⟩)
      · obtain ⟨r, -, rfl⟩ := List.mem_map.mp hm
        exact Or.inr (Or.inr ⟨r, rfl⟩)
    | delete =>
      obtain ⟨r, -, rfl⟩ := List.mem_map.mp hl
      exact Or.inr (Or.inl ⟨r, rfl⟩)
    | insert =>
      obtain ⟨r, -, rfl⟩ := List.mem_map.mp hl
      exact Or.inr (Or.inr ⟨r, rfl⟩)
  rcases hshape with ⟨r, rfl⟩ | ⟨r, rfl⟩ | ⟨r, rfl⟩
  · exact isHunkHeader_cons_false ' ' r (by decide)
  · exact isHunkHeader_cons_false '-' r (by decide)
  · exact isHunkHeader_cons_false '+' r (by decide)

theorem opsChain_headD (a b : List Str) (g : List Opcode) (si sj mi mj : Nat)
    (h : OpsChain a b si sj g mi mj) (hne : g ≠ []) :
    (g.headD defaultOp).i1 = si ∧ (g.headD defaultOp).j1 = sj := by
  cases g with
  | nil => exact absurd rfl hne
  | cons op rest =>
    obtain ⟨h1, h2, -, -⟩ := h
    exact ⟨h1, h2⟩

theorem collectOlds_opLines_flatten (a b : List Str) (g : List Opcode) :
    collectOlds ((g.map (opLines a b)).flatten) = (g.map (opOlds a)).flatten := by
  induction g with
  | nil => rfl
  | cons op rest ih =>
    simp only [List.map_cons, List.flatten_cons, collectOlds_append, ih]
    rw [collectOlds_opLines]

theorem collectNews_opLines_flatten (a b : List Str) (g : List Opcode) :
    collectNews ((g.map (opLines a b)).flatten) = (g.map (opNews a b)).flatten := by
  induction g with
  | nil => rfl
  | cons op rest ih =>
    simp only [List.map_cons, List.flatten_cons, collectNews_append, ih]
    rw [collectNews_opLines]

theorem opLines_flatten_not_header (a b : List Str) (g : List Opcode) :
    ∀ l ∈ (g.map (opLines a b)).flatten, (! isHunkHeader l) = true := by
  intro l hl
  rw [List.mem_flatten] at hl
  obtain ⟨ls, hls, hmem⟩ := hl
  rw [List.mem_map] at hls
  obtain ⟨op, -, rfl⟩ := hls
  rw [Bool.not_eq_true']
  exact opLines_not_header a b op l hmem

/-- Parsing the formatted text of one well-formed group, followed by more
header-led text, yields its semantic hunk. -/
theorem parseHunks_cons_group (a b : List Str) (g : List Opcode) (si sj mi mj : Nat)
    (hne : g ≠ []) (hchain : OpsChain a b si sj g mi mj)
    (hsa : si ≤ a.length) (hsb : sj ≤ b.length) (rest : List Str)
    (hrest : rest = [] ∨ ∃ x t, rest = x :: t ∧ isHunkHeader x = true) :
    parseHunks (formatGroup a b g ++ rest) = semHunk a b g :: parseHunks rest := by
  have hmono := opsChain_mono a b g _ _ _ _ hchain
  have hends := opsChain_end_le a b g _ _ _ _ hchain hsa hsb
  obtain ⟨hhd1, hhd2⟩ := opsChain_headD a b g si sj mi mj hchain hne
  obtain ⟨hlt1, hlt2⟩ := opsChain_getLastD a b g si sj mi mj hchain hne
  rw [formatGroup, hhd1, hhd2, hlt1, hlt2, List.cons_append, parseHunks]
  have hhdr : isHunkHeader (strL "@@ -" ++ formatRangeUnified si mi ++ strL " +" ++
      formatRangeUnified sj mj ++ strL " @@") = true := by
    simp only [List.append_assoc]
    exact isHunkHeader_append_true _
  rw [if_pos hhdr]
  dsimp only
  have hrstop : (rest.takeWhile fun x => ! isHunkHeader x) = [] := by
    apply takeWhile_stop
    rcases hrest with rfl | ⟨x, t, rfl, hx⟩
    · exact Or.inl rfl
    · exact Or.inr ⟨x, t, rfl, by rw [hx]; rfl⟩
  have hrdrop : (rest.dropWhile fun x => ! isHunkHeader x) = rest := by
    apply dropWhile_stop
    rcases hrest with rfl | ⟨x, t, rfl, hx⟩
    · exact Or.inl rfl
    · exact Or.inr ⟨x, t, rfl, by rw [hx]; rfl⟩
  rw [takeWhile_append_all _ _ _ (opLines_flatten_not_header a b g), hrstop,
    List.append_nil, dropWhile_append_all _ _ _ (opLines_flatten_not_header a b g),
    hrdrop]
  rw [collectOlds_opLines_flatten, collectNews_opLines_flatten,
    opsChain_olds a b g si sj mi mj hchain, opsChain_news a b g si sj mi mj hchain,
    headerOldStart_format si mi sj mj,
    semHunk_eq a b g si sj mi mj hne hchain]
  have hlenolds : (sliceIdx a si mi).length = mi - si :=
    sliceIdx_length a si mi hmono.1 hends.1
  by_cases hz : mi - si = 0
  · rw [if_pos (by rw [hlenolds]; exact hz), if_pos hz]
  · rw [if_neg (by rw [hlenolds]; exact hz), if_neg hz]
    congr 2

/-!
## Splitting and joining lines
-/

/-- A string with no line-break characters — e.g. any line produced by
`splitLines`. -/
def NoBreak (l : Str) : Prop := ∀ c ∈ l, isLineBreak c = false

theorem splitLines_crlf (rest : Str) :
    splitLines ('\r' :: '\n' :: rest) = [] :: splitLines rest := by
  rw [splitLines, if_pos rfl]

theorem splitLines_cr_nil : splitLines ['\r'] = [[]] := by
  rw [splitLines, if_pos rfl]

theorem splitLines_cr_other (c2 : Char) (rest2 : Str) (h : ¬ c2 = '\n') :
    splitLines ('\r' :: c2 :: rest2) = [] :: splitLines (c2 :: rest2) := by
  rw [splitLines.eq_def]
  dsimp only
  rw [if_pos rfl]
  split
  · next heq =>
    rw [List.cons.injEq] at heq
    exact absurd heq.1 h
  · next heq => cases heq
  · next heq =>
    rw [List.cons.injEq] at heq
    rw [heq.1, heq.2]

theorem splitLines_break (c : Char) (rest : Str) (hcr : ¬ c = '\r')
    (hbr : isLineBreak c = true) :
    splitLines (c :: rest) = [] :: splitLines rest := by
  rw [splitLines.eq_def]
  dsimp only
  rw [if_neg hcr, if_pos hbr]

theorem splitLines_nb_nil (c : Char) (rest : Str) (hbr : isLineBreak c = false)
    (hnil : splitLines rest = []) : splitLines (c :: rest) = [[c]] := by
  have hcr : ¬ c = '\r' := by
    intro hcon
    subst hcon
    exact absurd hbr (by decide)
  rw [splitLines.eq_def]
  dsimp only
  rw [if_neg hcr, if_neg (by rw [hbr]; simp), hnil]

theorem splitLines_nb_cons (c : Char) (rest : Str) (l : Str) (ls : List Str)
    (hbr : isLineBreak c = false) (hcons : splitLines rest = l :: ls) :
    splitLines (c :: rest) = (c :: l) :: ls := by
  have hcr : ¬ c = '\r' := by
    intro hcon
    subst hcon
    exact absurd hbr (by decide)
  rw [splitLines.eq_def]
  dsimp only
  rw [if_neg hcr, if_neg (by rw [hbr]; simp), hcons]

theorem splitLines_noBreak : ∀ s : Str, ∀ l ∈ splitLines s, NoBreak l := by
  intro s
  induction s using splitLines.induct with
  | case1 =>
    intro l hl
    cases hl
  | case2 rest2 ih =>
    intro l hl
    rw [splitLines_crlf] at hl
    rcases List.mem_cons.mp hl with rfl | hl2
    · intro x hx
      cases hx
    · exact ih l hl2
  | case3 =>
    intro l hl
    rw [splitLines_cr_nil] at hl
    rcases List.mem_cons.mp hl with rfl | hl2
    · intro x hx
      cases hx
    · cases hl2
  | case4 c2 rest2 hne ih =>
    intro l hl
    rw [splitLines_cr_other c2 rest2 (fun hcon => hne hcon)] at hl
    rcases List.mem_cons.mp hl with rfl | hl2
    · intro x hx
      cases hx
    · exact ih l hl2
  | case5 c rest hcr hbr ih =>
    intro l hl
    rw [splitLines_break c rest hcr hbr] at hl
    rcases List.mem_cons.mp hl with rfl | hl2
    · intro x hx
      cases hx
    · exact ih l hl2
  | case6 c rest hcr hbr hnil ih =>
    intro l hl
    rw [splitLines_nb_nil c rest (Bool.not_eq_true _ ▸ hbr) hnil] at hl
    rcases List.mem_cons.mp hl with rfl | hl2
    · intro x hx
      rcases List.mem_cons.mp hx with rfl | h
      · exact Bool.not_eq_true _ ▸ hbr
      · cases h
    · cases hl2
  | case7 c rest hcr hbr l0 ls heq ih =>
    intro l hl
    rw [splitLines_nb_cons c rest l0 ls (Bool.not_eq_true _ ▸ hbr) heq] at hl
    rcases List.mem_cons.mp hl with rfl | hl2
    · intro x hx
      rcases List.mem_cons.mp hx with rfl | h
      · exact Bool.not_eq_true _ ▸ hbr
      · exact ih l0 (heq ▸ List.mem_cons_self l0 ls) x h
    · exact ih l (heq ▸ List.mem_cons_of_mem l0 hl2)

theorem splitLines_append_newline (l : Str) (s : Str) (hl : NoBreak l) :
    splitLines (l ++ '\n' :: s) = l :: splitLines s := by
  induction l with
  | nil =>
    rw [List.nil_append, splitLines_break '\n' s (by decide) (by decide)]
  | cons c l' ih =>
    have hc : isLineBreak c = false := hl c (List.mem_cons_self c l')
    have hl' : NoBreak l' := fun x hx => hl x (List.mem_cons_of_mem c hx)
    rw [List.cons_append, splitLines_nb_cons c (l' ++ '\n' :: s) l' (splitLines s)
      hc (ih hl')]

theorem splitLines_single (l : Str) (hl : NoBreak l) (hne : l ≠ []) :
    splitLines l = [l] := by
  induction l with
  | nil => exact absurd rfl hne
  | cons c l' ih =>
    have hc : isLineBreak c = false := hl c (List.mem_cons_self c l')
    have hl' : NoBreak l' := fun x hx => hl x (List.mem_cons_of_mem c hx)
    cases l' with
    | nil =>
      exact splitLines_nb_nil c [] hc rfl
    | cons d t =>
      exact splitLines_nb_cons c (d :: t) (d :: t) [] hc
        (ih hl' (List.cons_ne_nil d t))

theorem splitLines_joinLines (ls : List Str)
    (h : ∀ l ∈ ls, l ≠ [] ∧ NoBreak l) (hne : ls ≠ []) :
    splitLines (joinLines ls) = ls := by
  induction ls with
  | nil => exact absurd rfl hne
  | cons l rest ih =>
    cases rest with
    | nil =>
      rw [joinLines]
      exact splitLines_single l (h l (List.mem_cons_self _ _)).2
        (h l (List.mem_cons_self _ _)).1
    | cons l2 rest2 =>
      rw [joinLines, splitLines_append_newline l (joinLines (l2 :: rest2))
        (h l (List.mem_cons_self _ _)).2]
      rw [ih (fun x hx => h x (List.mem_cons_of_mem l hx)) (List.cons_ne_nil l2 rest2)]
      exact fun hcon => List.noConfusion hcon

theorem formatGroups_flatten_shape (a b : List Str) (gs : List (List Opcode)) :
    (gs.map (formatGroup a b)).flatten = [] ∨
      ∃ x t, (gs.map (formatGroup a b)).flatten = x :: t ∧ isHunkHeader x = true := by
  cases gs with
  | nil => exact Or.inl rfl
  | cons g rest =>
    right
    simp only [List.map_cons, List.flatten_cons]
    rw [formatGroup, List.cons_append]
    exact ⟨_, _, rfl, isHunkHeader_append_true _⟩

/-- Parsing the whole formatted diff body recovers the semantic hunks of
all groups. -/
theorem parseHunks_groups (a b : List Str) (gs : List (List Opcode)) :
    ∀ i j, GroupsChain a b i j gs a.length b.length →
      parseHunks ((gs.map (formatGroup a b)).flatten) = gs.map (semHunk a b) := by
  induction gs with
  | nil =>
    intro i j h
    simp only [List.map_nil, List.flatten_nil]
    rw [parseHunks]
  | cons g gs ih =>
    intro i j h
    obtain ⟨si, sj, mi, mj, hskip, hne, hchain, hrest⟩ := h
    simp only [List.map_cons, List.flatten_cons]
    rw [parseHunks_cons_group a b g si sj mi mj hne hchain hskip.2.2.1 hskip.2.2.2.1 _
      (formatGroups_flatten_shape a b gs), ih mi mj hrest]

/-!
## Equal inputs produce no groups
-/

theorem foldl_stable (f : β → γ → β) (l : List γ) (acc : β)
    (h : ∀ x ∈ l, f acc x = acc) : l.foldl f acc = acc := by
  induction l with
  | nil => rfl
  | cons x xs ih =>
    rw [List.foldl_cons, h x (List.mem_cons_self x xs)]
    exact ih (fun y hy => h y (List.mem_cons_of_mem x hy))

theorem commonRun_self [DecidableEq α] (l : List α) : commonRun l l = l.length := by
  induction l with
  | nil => rfl
  | cons x xs ih => simp [commonRun, ih]

theorem flm_self [DecidableEq α] (a : List α) (h : a ≠ []) :
    findLongestMatch a a = (0, 0, a.length) := by
  cases a with
  | nil => exact absurd rfl h
  | cons x xs =>
    unfold findLongestMatch
    simp only [List.length_cons, List.range_succ_eq_map, List.foldl_cons,
      List.drop_zero]
    rw [commonRun_self, List.length_cons, if_pos (Nat.succ_pos xs.length)]
    have hstab0 : (List.map Nat.succ (List.range xs.length)).foldl
        (fun best j =>
          if best.2.2 < commonRun (x :: xs) (List.drop j (x :: xs)) then
            ((0 : Nat), j, commonRun (x :: xs) (List.drop j (x :: xs)))
          else best) ((0 : Nat), (0 : Nat), xs.length + 1) = (0, 0, xs.length + 1) := by
      apply foldl_stable
      intro j hj
      have h1 := commonRun_le_left (x :: xs) (List.drop j (x :: xs))
      simp only [List.length_cons] at h1
      dsimp only
      rw [if_neg (by omega)]
    rw [hstab0]
    apply foldl_stable
    intro i hi
    dsimp only
    have h1 := commonRun_le_left (List.drop i (x :: xs)) (x :: xs)
    simp only [List.length_drop, List.length_cons] at h1
    rw [if_neg (by omega)]
    apply foldl_stable
    intro j hj
    have h2 := commonRun_le_left (List.drop i (x :: xs)) (List.drop j (x :: xs))
    simp only [List.length_drop, List.length_cons] at h2
    dsimp only
    rw [if_neg (by omega)]

theorem rawBlocks_nil [DecidableEq α] : rawBlocks ([] : List α) [] = [] := by
  have hflm : findLongestMatch ([] : List α) [] = (0, 0, 0) := rfl
  rw [rawBlocks]
  rw [dif_pos (by rw [hflm])]

theorem rawBlocks_self [DecidableEq α] (a : List α) (h : a ≠ []) :
    rawBlocks a a = [(0, 0, a.length)] := by
  have hflm := flm_self a h
  have hlen : a.length ≠ 0 := by
    intro hcon
    exact h (List.length_eq_zero.mp hcon)
  rw [rawBlocks]
  rw [hflm]
  rw [dif_neg (by dsimp only; exact hlen)]
  dsimp only
  rw [Nat.zero_add, List.drop_length]
  rw [show a.take 0 = [] from rfl, rawBlocks_nil]
  rfl

theorem getOpcodes_self [DecidableEq α] (a : List α) (h : a ≠ []) :
    getOpcodes a a = [⟨.equal, 0, a.length, 0, a.length⟩] := by
  have hlen : a.length ≠ 0 := by
    intro hcon
    exact h (List.length_eq_zero.mp hcon)
  rw [getOpcodes, matchingBlocks, rawBlocks_self a h, collapseBlocks]
  simp [opcodesFrom, hlen]

theorem groupedOpcodes_single_equal (L : Nat) (hL : 1 ≤ L) :
    groupedOpcodes 1 [⟨.equal, 0, L, 0, L⟩] = [] := by
  rw [groupedOpcodes]
  rw [if_neg (by simp)]
  rw [trimHead, if_pos rfl]
  dsimp only
  rw [trimTail, if_pos rfl]
  dsimp only
  rw [loopGroups]
  rw [if_neg (by
    dsimp only
    rintro ⟨-, hlt⟩
    omega)]
  rw [List.nil_append, loopGroups]
  rw [if_pos rfl]

theorem groupedOpcodes_self [DecidableEq α] (a : List α) :
    groupedOpcodes 1 (getOpcodes a a) = [] := by
  by_cases h : a = []
  · subst h
    rw [getOpcodes_nil]
    rfl
  · rw [getOpcodes_self a h]
    exact groupedOpcodes_single_equal a.length (List.length_pos.mpr h)

/-- The grouped opcodes are empty exactly when the inputs are equal. -/
theorem groupedOpcodes_nil_iff [DecidableEq α] (a b : List α) :
    groupedOpcodes 1 (getOpcodes a b) = [] ↔ a = b := by
  constructor
  · intro h
    have hch := groupedOpcodes_chain a b
    rw [h] at hch
    have hsk : SkipEq a b 0 0 a.length b.length := hch
    obtain ⟨-, -, -, -, -, hsl⟩ := hsk
    rw [sliceIdx_zero_length, sliceIdx_zero_length] at hsl
    exact hsl
  · rintro rfl
    exact groupedOpcodes_self _

/-!
## The diff body splits back into its lines
-/

theorem isDigitCh_not_break (c : Char) (h : isDigitCh c = true) :
    isLineBreak c = false := by
  rw [isDigitCh] at h
  rw [decide_eq_true_eq] at h
  rw [isLineBreak]
  rw [decide_eq_false_iff_not]
  rintro (h1 | h1 | h1 | h1 | h1 | h1 | h1 | h1)
  · have h2 : c.toNat = 10 := by rw [h1]; rfl
    omega
  · have h2 : c.toNat = 13 := by rw [h1]; rfl
    omega
  all_goals omega

theorem natToStr_noBreak (n : Nat) : NoBreak (natToStr n) :=
  fun c hc => isDigitCh_not_break c (natToStr_all_digits n c hc)

theorem noBreak_append (l1 l2 : Str) (h1 : NoBreak l1) (h2 : NoBreak l2) :
    NoBreak (l1 ++ l2) :=
  fun c hc => (List.mem_append.mp hc).elim (h1 c) (h2 c)

theorem formatRangeUnified_noBreak (s t : Nat) :
    NoBreak (formatRangeUnified s t) := by
  rw [formatRangeUnified]
  split
  · exact natToStr_noBreak _
  · refine noBreak_append _ _ (natToStr_noBreak _) ?_
    intro c hc
    rcases List.mem_cons.mp hc with rfl | hm
    · decide
    · exact natToStr_noBreak _ c hm

theorem mem_sliceIdx (l : List α) (i j : Nat) (x : α) (h : x ∈ sliceIdx l i j) :
    x ∈ l := by
  rw [sliceIdx] at h
  exact List.mem_of_mem_drop (List.mem_of_mem_take h)

theorem noBreak_of_ball (l : Str) (h : ∀ c ∈ l, isLineBreak c = false) :
    NoBreak l := h

theorem tagLine_ok (c : Char) (r : Str) (hc : isLineBreak c = false)
    (hr : NoBreak r) : (c :: r) ≠ [] ∧ NoBreak (c :: r) :=
  ⟨List.cons_ne_nil c r,
    fun x hx => (List.mem_cons.mp hx).elim (fun h => h.symm ▸ hc) (hr x)⟩

theorem opLines_ok (a b : List Str) (ha : ∀ l ∈ a, NoBreak l)
    (hb : ∀ l ∈ b, NoBreak l) (op : Opcode) :
    ∀ l ∈ opLines a b op, l ≠ [] ∧ NoBreak l := by
  obtain ⟨tag, i1, i2, j1, j2⟩ := op
  intro l hl
  rw [opLines] at hl
  dsimp only at hl
  have hshape : ∃ r, (r ∈ a ∨ r ∈ b) ∧
      (l = ' ' :: r ∨ l = '-' :: r ∨ l = '+' :: r) := by
    cases tag with
    | equal =>
      obtain ⟨r, hr, rfl⟩ := List.mem_map.mp hl
      exact ⟨r, Or.inl (mem_sliceIdx a i1 i2 r hr), Or.inl rfl⟩
    | replace =>
      rcases List.mem_append.mp hl with hm | hm
      · obtain ⟨r, hr, rfl⟩ := List.mem_map.mp hm
        exact ⟨r, Or.inl (mem_sliceIdx a i1 i2 r hr), Or.inr (Or.inl rfl)⟩
      · obtain ⟨r, hr, rfl⟩ := List.mem_map.mp hm
        exact ⟨r, Or.inr (mem_sliceIdx b j1 j2 r hr), Or.inr (Or.inr rfl)⟩
    | delete =>
      obtain ⟨r, hr, rfl⟩ := List.mem_map.mp hl
      exact ⟨r, Or.inl (mem_sliceIdx a i1 i2 r hr), Or.inr (Or.inl rfl)⟩
    | insert =>
      obtain ⟨r, hr, rfl⟩ := List.mem_map.mp hl
      exact ⟨r, Or.inr (mem_sliceIdx b j1 j2 r hr), Or.inr (Or.inr rfl)⟩
  obtain ⟨r, hmem, hform⟩ := hshape
  have hnb : NoBreak r := hmem.elim (ha r) (hb r)
  rcases hform with rfl | rfl | rfl
  · exact tagLine_ok ' ' r (by decide) hnb
  · exact tagLine_ok '-' r (by decide) hnb
  · exact tagLine_ok '+' r (by decide) hnb

theorem formatGroup_lines_ok (a b : List Str) (ha : ∀ l ∈ a, NoBreak l)
    (hb : ∀ l ∈ b, NoBreak l) (g : List Opcode) :
    ∀ l ∈ formatGroup a b g, l ≠ [] ∧ NoBreak l := by
  intro l hl
  rw [formatGroup] at hl
  rcases List.mem_cons.mp hl with rfl | hbody
  · constructor
    · intro hcon
      simp only [List.append_eq_nil] at hcon
      exact absurd hcon.1.1.1.1 (by decide)
    · refine noBreak_append _ _ (noBreak_append _ _ (noBreak_append _ _
        (noBreak_append _ _ (noBreak_of_ball _ (by decide))
          (formatRangeUnified_noBreak _ _))
        (noBreak_of_ball _ (by decide))) (formatRangeUnified_noBreak _ _))
        (noBreak_of_ball _ (by decide))
  · rw [List.mem_flatten] at hbody
    obtain ⟨ls, hls, hmem⟩ := hbody
    obtain ⟨op, -, rfl⟩ := List.mem_map.mp hls
    exact opLines_ok a b ha hb op l hmem

theorem formatGroups_lines_ok (a b : List Str) (ha : ∀ l ∈ a, NoBreak l)
    (hb : ∀ l ∈ b, NoBreak l) (gs : List (List Opcode)) :
    ∀ l ∈ (gs.map (formatGroup a b)).flatten, l ≠ [] ∧ NoBreak l := by
  intro l hl
  rw [List.mem_flatten] at hl
  obtain ⟨ls, hls, hmem⟩ := hl
  obtain ⟨g, -, rfl⟩ := List.mem_map.mp hls
  exact formatGroup_lines_ok a b ha hb g l hmem

/-!
## `create_source_diff`: absence and round trip
-/

/-- `create_source_diff` returns `None` exactly when the stripped sources
split into the same list of lines. -/
theorem create_source_diff_none_iff (u f : Str) :
    create_source_diff u f = none ↔
      splitLines (pyStrip u) = splitLines (pyStrip f) := by
  rw [create_source_diff]
  cases hgs : groupedOpcodes 1
      (getOpcodes (splitLines (pyStrip u)) (splitLines (pyStrip f))) with
  | nil =>
    have heq := (groupedOpcodes_nil_iff _ _).mp hgs
    have hdiff : unified_diff (splitLines (pyStrip u)) (splitLines (pyStrip f)) = [] := by
      rw [unified_diff, hgs]
      rfl
    rw [hdiff]
    rw [if_neg (by simp)]
    exact iff_of_true rfl heq
  | cons g rest =>
    have hne : ¬ (splitLines (pyStrip u) = splitLines (pyStrip f)) := by
      intro hcon
      have h2 := (groupedOpcodes_nil_iff _ _).mpr hcon
      rw [hgs] at h2
      cases h2
    have hdiff : unified_diff (splitLines (pyStrip u)) (splitLines (pyStrip f)) =
        strL "--- " :: strL "+++ " :: ((g :: rest).map
          (formatGroup (splitLines (pyStrip u)) (splitLines (pyStrip f)))).flatten := by
      rw [unified_diff, hgs]
      rfl
    rw [hdiff]
    rw [if_pos (by
      rw [List.map_cons, List.flatten_cons, formatGroup]
      rw [List.cons_append]
      simp only [List.length_cons]
      omega)]
    exact iff_of_false (fun hcon => Option.noConfusion hcon) hne

/-- Round trip: a returned patch, applied to the stripped user source,
rebuilds the stripped fixed source (as the join of its lines). -/
theorem create_source_diff_apply (u f p : Str)
    (h : create_source_diff u f = some p) :
    applyPatch p (pyStrip u) = some (joinLines (splitLines (pyStrip f))) := by
  rw [create_source_diff] at h
  cases hgs : groupedOpcodes 1
      (getOpcodes (splitLines (pyStrip u)) (splitLines (pyStrip f))) with
  | nil =>
    have hdiff : unified_diff (splitLines (pyStrip u)) (splitLines (pyStrip f)) = [] := by
      rw [unified_diff, hgs]
      rfl
    rw [hdiff] at h
    rw [if_neg (by simp)] at h
    cases h
  | cons g rest =>
    have hdiff : unified_diff (splitLines (pyStrip u)) (splitLines (pyStrip f)) =
        strL "--- " :: strL "+++ " :: ((g :: rest).map
          (formatGroup (splitLines (pyStrip u)) (splitLines (pyStrip f)))).flatten := by
      rw [unified_diff, hgs]
      rfl
    rw [hdiff] at h
    rw [if_pos (by
      rw [List.map_cons, List.flatten_cons, formatGroup]
      rw [List.cons_append]
      simp only [List.length_cons]
      omega)] at h
    have hp : p = joinLines (((g :: rest).map
        (formatGroup (splitLines (pyStrip u)) (splitLines (pyStrip f)))).flatten) := by
      rw [← Option.some.inj h]
      rfl
    have hch : GroupsChain (splitLines (pyStrip u)) (splitLines (pyStrip f)) 0 0
        (g :: rest) (splitLines (pyStrip u)).length (splitLines (pyStrip f)).length := by
      have h2 := groupedOpcodes_chain (splitLines (pyStrip u)) (splitLines (pyStrip f))
      rw [hgs] at h2
      exact h2
    have hok := formatGroups_lines_ok (splitLines (pyStrip u)) (splitLines (pyStrip f))
      (fun l hl => splitLines_noBreak (pyStrip u) l hl)
      (fun l hl => splitLines_noBreak (pyStrip f) l hl) (g :: rest)
    have hbodyne : (((g :: rest).map
        (formatGroup (splitLines (pyStrip u)) (splitLines (pyStrip f)))).flatten) ≠ [] := by
      rw [List.map_cons, List.flatten_cons, formatGroup, List.cons_append]
      exact List.cons_ne_nil _ _
    have hsplit : splitLines p = ((g :: rest).map
        (formatGroup (splitLines (pyStrip u)) (splitLines (pyStrip f)))).flatten := by
      rw [hp]
      exact splitLines_joinLines _ hok hbodyne
    rw [applyPatch, hsplit,
      parseHunks_groups (splitLines (pyStrip u)) (splitLines (pyStrip f)) (g :: rest) 0 0 hch,
      groupsChain_apply (splitLines (pyStrip u)) (splitLines (pyStrip f)) (g :: rest) 0 0 hch]
    rw [List.drop_zero]
    rfl

/-!
## Whole-string strip and a trailing newline
-/

theorem pyStrip_append_newline (s : Str) : pyStrip (s ++ ['\n']) = pyStrip s := by
  rw [pyStrip, pyStrip, List.dropWhile_append]
  by_cases hemp : (s.dropWhile pyIsSpace).isEmpty
  · rw [if_pos hemp]
    rw [List.isEmpty_iff] at hemp
    rw [hemp]
    rfl
  · rw [if_neg hemp]
    rw [List.reverse_append]
    rw [show (['\n'] : Str).reverse = ['\n'] from rfl]
    rw [List.singleton_append]
    rw [List.dropWhile_cons]
    rw [if_pos (by decide)]

/-!
## The session update as a run length
-/

theorem updateSession_last (s : Session) (status : Str) :
    (updateSession s status).last_error = some status := by
  rw [updateSession]
  split
  · rfl
  · split
    · rfl
    · rfl

theorem updateSession_attempt (s : Session) (status : Str) :
    (updateSession s status).attempt =
      if status = strL "SUCCESS" then 0
      else if s.last_error = some status then s.attempt + 1 else 1 := by
  rw [updateSession]
  by_cases h1 : status = strL "SUCCESS"
  · rw [if_pos h1, if_pos h1]
  · rw [if_neg h1, if_neg h1]
    by_cases h2 : s.last_error = some status
    · rw [if_pos h2, if_pos h2]
    · rw [if_neg h2, if_neg h2]

theorem countRun_lastErr (y : Str) (hy : y ≠ strL "SUCCESS") (r : List Str) :
    countRun y r = if lastErrRev r = some y then runLenRev r else 0 := by
  cases r with
  | nil =>
    rw [countRun, lastErrRev, if_neg (by intro hcon; cases hcon)]
  | cons x t =>
    by_cases hxy : x = y
    · subst hxy
      rw [countRun, lastErrRev, runLenRev]
      rw [if_pos rfl, if_pos rfl, if_neg hy]
    · rw [countRun, lastErrRev]
      rw [if_neg hxy, if_neg (by intro hcon; exact hxy (Option.some.inj hcon))]

theorem session_fold (history : List Str) :
    (history.foldl updateSession freshSession).last_error = lastErrRev history.reverse ∧
    (history.foldl updateSession freshSession).attempt = runLenRev history.reverse := by
  induction history using List.reverseRecOn with
  | nil => exact ⟨rfl, rfl⟩
  | append_singleton ys y ih =>
    rw [List.foldl_append, List.foldl_cons, List.foldl_nil, List.reverse_append]
    rw [show ([y] : List Str).reverse = [y] from rfl, List.singleton_append]
    constructor
    · rw [updateSession_last, lastErrRev]
    · rw [updateSession_attempt, runLenRev]
      by_cases hy : y = strL "SUCCESS"
      · rw [if_pos hy, if_pos hy]
      · rw [if_neg hy, if_neg hy]
        rw [countRun_lastErr y hy ys.reverse]
        by_cases hle : (ys.foldl updateSession freshSession).last_error = some y
        · rw [if_pos hle, if_pos (ih.1 ▸ hle), ih.2]
        · rw [if_neg hle, if_neg (fun hcon => hle (ih.1.symm ▸ hcon))]

/-!
## The analyzer picks a matching catalog entry
-/

theorem minByPriority_mem (d : ErrEntry) (ds : List ErrEntry) :
    minByPriority d ds ∈ d :: ds := by
  rw [minByPriority]
  apply foldl_preserve (fun acc => acc ∈ d :: ds)
  · exact List.mem_cons_self d ds
  · intro acc e he hacc
    dsimp only
    split
    · exact List.mem_cons_of_mem d he
    · exact hacc

theorem analyze_error_logs_cons (search : Str → Str → Bool)
    (error_patterns : List ErrEntry) (logs : List Str) (hlogs : logs ≠ [])
    (d : ErrEntry) (ds : List ErrEntry)
    (hfilt : error_patterns.filter (fun e => search e.pat (joinLines logs)) = d :: ds) :
    analyze_error_logs search error_patterns logs =
      ((minByPriority d ds).etype, (minByPriority d ds).hint) := by
  rw [analyze_error_logs]
  rw [if_neg (by simpa [List.isEmpty_iff] using hlogs)]
  dsimp only
  rw [hfilt]

theorem analyze_error_logs_nil (search : Str → Str → Bool)
    (error_patterns : List ErrEntry) (logs : List Str) (hlogs : logs ≠ [])
    (hfilt : error_patterns.filter (fun e => search e.pat (joinLines logs)) = []) :
    analyze_error_logs search error_patterns logs =
      (strL "SUCCESS", strL "No errors found.") := by
  rw [analyze_error_logs]
  rw [if_neg (by simpa [List.isEmpty_iff] using hlogs)]
  dsimp only
  rw [hfilt]

/-!
## The claims
-/

/-- C1 counterexample: the outputs `"a\nb"` and `"a \nb"` differ only in
trailing whitespace of an individual line, so the specified line-by-line
comparison accepts them, but the code's whole-string-strip comparison
(`output.strip() != case_expected` with `case_expected = case["output"].strip()`,
`sandbox.py:179,198,221`) rejects them. -/
theorem c1_counterexample :
    specLineByLineEqual (strL "a\nb") (strL "a \nb") = true ∧
    compareOutputs (strL "a\nb") (strL "a \nb") = false := by
  decide

/-- C1 (amended): `run_investigation` compares the outputs after stripping
leading/trailing whitespace of the *whole* string (not line-by-line), so a
program printing the expected output followed by a single trailing newline
still compares equal, and equality is otherwise exact. -/
theorem c1_whole_string_strip (expected actual : Str) :
    (compareOutputs expected actual = true ↔ pyStrip actual = pyStrip expected) ∧
    compareOutputs expected (expected ++ ['\n']) = true := by
  constructor
  · rw [compareOutputs]
    exact beq_iff_eq
  · rw [compareOutputs, pyStrip_append_newline]
    exact beq_self_eq_true _

/-- C2 (confirmed): after a submission the session's `last_error` is the
returned status and `attempt` is 0 on `SUCCESS`, incremented on a repeat of
the previous error and reset to 1 otherwise (`app.py:176-186`); folding the
update over any status history therefore leaves `attempt` equal to the
run length of consecutive identical non-success statuses ending at the
most recent one. -/
theorem c2_session_attempts (s : Session) (final_status : Str) (history : List Str) :
    ((updateSession s final_status).last_error = some final_status ∧
      (updateSession s final_status).attempt =
        (if final_status = strL "SUCCESS" then 0
         else if s.last_error = some final_status then s.attempt + 1 else 1)) ∧
    ((history.foldl updateSession freshSession).last_error = lastErrRev history.reverse ∧
      (history.foldl updateSession freshSession).attempt = runLenRev history.reverse) :=
  ⟨⟨updateSession_last s final_status, updateSession_attempt s final_status⟩,
    session_fold history⟩

/-- C2 witness: two consecutive submissions with the same failing status
leave the attempt counter at 2. -/
theorem c2_session_attempts_witness :
    ([strL "E", strL "E"].foldl updateSession freshSession).attempt = 2 := by
  rw [(c2_session_attempts freshSession (strL "E") [strL "E", strL "E"]).2.2]
  decide

/-- C3 (confirmed): provided every catalog entry's type differs from
`"SUCCESS"` (the analyzer reserves that value for "nothing found") and the
log list is non-empty, the override of `submit_code` (`app.py:157-164`)
rewrites the outcome to a matched entry's type with the entry's hint as
evidence exactly when some catalog pattern matches the joined logs *and*
the coarse status is `LOGIC_ERROR`; in every other case status and
evidence pass through unchanged. -/
theorem c3_priority_override (search : Str → Str → Bool)
    (error_patterns : List ErrEntry) (logs : List Str) (raw_status : Str)
    (evidence : Evidence)
    (hpat : ∀ e ∈ error_patterns, e.etype ≠ strL "SUCCESS")
    (hlogs : logs ≠ []) :
    ((error_patterns.filter (fun e => search e.pat (joinLines logs)) ≠ [] ∧
        raw_status = strL "LOGIC_ERROR") →
      ∃ e ∈ error_patterns, search e.pat (joinLines logs) = true ∧
        priority_override (analyze_error_logs search error_patterns logs).1
          (analyze_error_logs search error_patterns logs).2 raw_status evidence =
          (e.etype, .str e.hint)) ∧
    (¬ (error_patterns.filter (fun e => search e.pat (joinLines logs)) ≠ [] ∧
        raw_status = strL "LOGIC_ERROR") →
      priority_override (analyze_error_logs search error_patterns logs).1
        (analyze_error_logs search error_patterns logs).2 raw_status evidence =
        (raw_status, evidence)) := by
  constructor
  · rintro ⟨hne, hraw⟩
    cases hfilt : error_patterns.filter (fun e => search e.pat (joinLines logs)) with
    | nil => exact absurd hfilt hne
    | cons d ds =>
      have hres := analyze_error_logs_cons search error_patterns logs hlogs d ds hfilt
      have hmem : minByPriority d ds ∈
          error_patterns.filter (fun e => search e.pat (joinLines logs)) := by
        rw [hfilt]
        exact minByPriority_mem d ds
      rw [List.mem_filter] at hmem
      refine ⟨minByPriority d ds, hmem.1, hmem.2, ?_⟩
      rw [hres, priority_override]
      rw [if_pos ⟨hpat (minByPriority d ds) hmem.1, hraw⟩]
  · intro hcon
    rw [priority_override]
    rw [if_neg (by
      rintro ⟨hne2, hraw⟩
      apply hcon
      refine ⟨?_, hraw⟩
      intro hnil
      exact hne2 (by
        rw [analyze_error_logs_nil search error_patterns logs hlogs hnil]))]

/-- C3 witness: with a one-entry catalog whose pattern matches everything,
a `LOGIC_ERROR` outcome is rewritten to the entry's type and hint. -/
theorem c3_priority_override_witness :
    priority_override
      (analyze_error_logs (fun _ _ => true) [⟨strL "E", 1, [], []⟩] [['x']]).1
      (analyze_error_logs (fun _ _ => true) [⟨strL "E", 1, [], []⟩] [['x']]).2
      (strL "LOGIC_ERROR") .none = (strL "E", .str []) := by
  obtain ⟨e, hmem, -, heq⟩ := (c3_priority_override (fun _ _ => true)
    [⟨strL "E", 1, [], []⟩] [['x']] (strL "LOGIC_ERROR") .none
    (by decide) (by decide)).1 ⟨by decide, rfl⟩
  have he : e = ⟨strL "E", 1, [], []⟩ := List.mem_singleton.mp hmem
  subst he
  rw [heq]

/-- C4 (code bug): with a recognised language but a problem id missing from
the catalog, `run_investigation` does not return `SYSTEM_ERROR` — it
raises: only the runner is `None`-checked (`sandbox.py:172`) before
`problem.get("hidden_cases", [])` is called on `problem = None`
(`sandbox.py:174`), an `AttributeError`.  The `SYSTEM_ERROR` path exists
only for an unrecognised language. -/
theorem c4_missing_problem_raises (ndiff : List Str → List Str → List Str)
    (c cpp python java : Str → Str → RunnerResult) (code problem_id : Str)
    (problems_db : Str → Option Problem)
    (hmiss : problems_db problem_id = none) :
    run_investigation ndiff (RUNNERS c cpp python java) code (strL "python")
        problem_id problems_db =
      .error (strL "AttributeError: 'NoneType' object has no attribute 'get'") ∧
    (∀ language, RUNNERS c cpp python java language = none →
      run_investigation ndiff (RUNNERS c cpp python java) code language
        problem_id problems_db =
        .ok ([phase1Log language], strL "SYSTEM_ERROR",
          .str (strL "Language unsupported"))) := by
  constructor
  · have hpy : RUNNERS c cpp python java (strL "python") = some python := rfl
    rw [run_investigation, hpy, hmiss]
  · intro language hnone
    rw [run_investigation, hnone]

/-- C4 witness: a concrete investigation with language `"python"` and an
empty problem catalog ends in the `AttributeError`, not in `SYSTEM_ERROR`. -/
theorem c4_missing_problem_raises_witness :
    run_investigation (fun _ _ => [])
      (RUNNERS (fun _ _ => .raw 0 [] []) (fun _ _ => .raw 0 [] [])
        (fun _ _ => .raw 0 [] []) (fun _ _ => .raw 0 [] []))
      [] (strL "python") (strL "p1") (fun _ => none) =
      .error (strL "AttributeError: 'NoneType' object has no attribute 'get'") :=
  (c4_missing_problem_raises (fun _ _ => []) (fun _ _ => .raw 0 [] [])
    (fun _ _ => .raw 0 [] []) (fun _ _ => .raw 0 [] []) (fun _ _ => .raw 0 [] [])
    [] (strL "p1") (fun _ => none) rfl).1

/-- C5 counterexample: for user source `"a"` and oracle text `"b\n"` a
patch is returned, but applying it to the student source rebuilds `"b"` —
`create_source_diff` strips both sources first (`agent.py:86-87`), so the
oracle's trailing newline is lost and the claimed exact reproduction of
`fixed_code` fails. -/
theorem c5_counterexample :
    ∃ p, create_source_diff (strL "a") (strL "b\n") = some p ∧
      applyPatch p (strL "a") ≠ some (strL "b\n") := by
  refine ⟨strL "@@ -1 +1 @@\n-a\n+b", ?_, ?_⟩
  · simp +decide [create_source_diff, unified_diff, groupedOpcodes, getOpcodes,
      matchingBlocks, rawBlocks, collapseBlocks, opcodesFrom, trimHead, trimTail,
      loopGroups, formatGroup, opLines, formatRangeUnified, natToStr, splitLines,
      pyStrip, joinLines, sliceIdx, strL, findLongestMatch, commonRun]
  · intro hcon
    have h := create_source_diff_apply (strL "a") (strL "b\n")
      (strL "@@ -1 +1 @@\n-a\n+b")
      (by simp +decide [create_source_diff, unified_diff, groupedOpcodes, getOpcodes,
        matchingBlocks, rawBlocks, collapseBlocks, opcodesFrom, trimHead, trimTail,
        loopGroups, formatGroup, opLines, formatRangeUnified, natToStr, splitLines,
        pyStrip, joinLines, sliceIdx, strL, findLongestMatch, commonRun])
    have h3 : strL "b\n" = joinLines (splitLines (pyStrip (strL "b\n"))) :=
      Option.some.inj (hcon.symm.trans h)
    exact absurd h3 (by decide)

/-- C5 (amended): the patch is the unified diff (one line of context,
first two header lines dropped) of the *stripped* sources; it is absent
exactly when the stripped sources split into the same lines; and applying
a returned patch to the stripped student source rebuilds the stripped
oracle text (its lines joined with `"\n"`), not necessarily the oracle's
exact text. -/
theorem c5_patch_roundtrip (user_code fixed_code : Str) :
    (create_source_diff user_code fixed_code = none ↔
      splitLines (pyStrip user_code) = splitLines (pyStrip fixed_code)) ∧
    (∀ p, create_source_diff user_code fixed_code = some p →
      applyPatch p (pyStrip user_code) =
        some (joinLines (splitLines (pyStrip fixed_code)))) :=
  ⟨create_source_diff_none_iff user_code fixed_code,
    fun p hp => create_source_diff_apply user_code fixed_code p hp⟩

/-- C5 witness: the patch from `"a"` to `"b"` applies back to `"a"` and
yields `"b"`. -/
theorem c5_patch_roundtrip_witness :
    applyPatch (strL "@@ -1 +1 @@\n-a\n+b") (strL "a") = some (strL "b") := by
  have h := (c5_patch_roundtrip (strL "a") (strL "b")).2 (strL "@@ -1 +1 @@\n-a\n+b")
    (by simp +decide [create_source_diff, unified_diff, groupedOpcodes, getOpcodes,
      matchingBlocks, rawBlocks, collapseBlocks, opcodesFrom, trimHead, trimTail,
      loopGroups, formatGroup, opLines, formatRangeUnified, natToStr, splitLines,
      pyStrip, joinLines, sliceIdx, strL, findLongestMatch, commonRun])
  exact h.trans (by decide)

/-- C6 counterexample: a `COMPILATION_ERROR` outcome with string evidence
is *not* normalised — `app.py:167` lists only `SYNTAX_ERROR` and
`RUNTIME_ERROR` — so the raw compiler stderr, not a `"Line N: message"`
string, reaches the hint prompt. -/
theorem c6_counterexample :
    submit_classify (fun _ _ => false) [] [['l']] (strL "COMPILATION_ERROR")
        (.str (strL "x.c:3:1: error: boom")) (strL "c") =
      (strL "COMPILATION_ERROR", .str (strL "x.c:3:1: error: boom")) ∧
    (strL "x.c:3:1: error: boom") ≠
      strL "Line " ++ (get_first_error (strL "x.c:3:1: error: boom") (strL "c")).line ++
        strL ": " ++ (get_first_error (strL "x.c:3:1: error: boom") (strL "c")).msg := by
  constructor
  · decide
  · decide

/-- C6 (amended): only a final status of `SYNTAX_ERROR` or `RUNTIME_ERROR`
with string sandbox evidence has its evidence replaced by the Diagnostic
Parser's `"Line N: message"` normalisation; a `COMPILATION_ERROR` outcome
passes its raw string evidence through unchanged. -/
theorem c6_evidence_normalisation (search : Str → Str → Bool)
    (error_patterns : List ErrEntry) (logs : List Str)
    (raw_status s language : Str) :
    (((submit_classify search error_patterns logs raw_status (.str s) language).1 =
        strL "SYNTAX_ERROR" ∨
      (submit_classify search error_patterns logs raw_status (.str s) language).1 =
        strL "RUNTIME_ERROR") →
      (submit_classify search error_patterns logs raw_status (.str s) language).2 =
        .str (strL "Line " ++ (get_first_error s language).line ++ strL ": " ++
          (get_first_error s language).msg)) ∧
    (raw_status = strL "COMPILATION_ERROR" →
      submit_classify search error_patterns logs raw_status (.str s) language =
        (strL "COMPILATION_ERROR", .str s)) := by
  constructor
  · intro h
    rw [submit_classify] at h ⊢
    dsimp only at h ⊢
    rw [if_pos h]
  · intro hraw
    subst hraw
    rw [submit_classify]
    dsimp only
    rw [priority_override]
    rw [if_neg (by
      rintro ⟨-, hcon⟩
      exact absurd hcon (by decide))]
    dsimp only
    rw [if_neg (by
      rintro (hcon | hcon) <;> exact absurd hcon (by decide))]

/-- C6 witness: a raw `SYNTAX_ERROR` with C-compiler stderr has its
evidence normalised to `"Line 3: boom"`. -/
theorem c6_evidence_normalisation_witness :
    (submit_classify (fun _ _ => false) [] [['l']] (strL "SYNTAX_ERROR")
        (.str (strL "x.c:3:1: error: boom")) (strL "c")).2 =
      .str (strL "Line 3: boom") := by
  have h := (c6_evidence_normalisation (fun _ _ => false) [] [['l']]
    (strL "SYNTAX_ERROR") (strL "x.c:3:1: error: boom") (strL "c")).1
    (Or.inl (by decide))
  rw [h]
  decide

/-- C7 counterexample: stderr containing `"TabError"` (and none of the
checked markers) is *not* pre-classified — `sandbox.py:128` checks only
`"SyntaxError"` and `"IndentationError"` — the raw triple comes back. -/
theorem c7_counterexample :
    run_python (fun _ _ => (1, [], strL "TabError: bad tabs")) [] [] =
      .raw 1 [] (strL "TabError: bad tabs") := by
  decide

/-- C7 (amended): the Python driver pre-classifies stderr containing
`"SyntaxError"` or `"IndentationError"` (but not `"TabError"`) as
`SYNTAX_ERROR`, then stderr containing `"TypeError"` as `TYPE_ERROR`, and
otherwise returns the raw `(exit code, stdout, stderr)` triple. -/
theorem c7_run_python_classification (container : Str → Str → Int × Str × Str)
    (code input_str : Str) :
    ((strContains (container code input_str).2.2 (strL "SyntaxError") ||
        strContains (container code input_str).2.2 (strL "IndentationError")) = true →
      run_python container code input_str =
        .pre (strL "SYNTAX_ERROR") [] (container code input_str).2.2) ∧
    ((strContains (container code input_str).2.2 (strL "SyntaxError") ||
        strContains (container code input_str).2.2 (strL "IndentationError")) = false →
      strContains (container code input_str).2.2 (strL "TypeError") = true →
      run_python container code input_str =
        .pre (strL "TYPE_ERROR") [] (container code input_str).2.2) ∧
    ((strContains (container code input_str).2.2 (strL "SyntaxError") ||
        strContains (container code input_str).2.2 (strL "IndentationError")) = false →
      strContains (container code input_str).2.2 (strL "TypeError") = false →
      run_python container code input_str =
        .raw (container code input_str).1 (container code input_str).2.1
          (container code input_str).2.2) := by
  refine ⟨?_, ?_, ?_⟩
  · intro h
    rw [run_python]
    rw [if_pos h]
  · intro h1 h2
    rw [run_python]
    rw [if_neg (by rw [h1]; exact Bool.false_ne_true), if_pos h2]
  · intro h1 h2
    rw [run_python]
    rw [if_neg (by rw [h1]; exact Bool.false_ne_true),
      if_neg (by rw [h2]; exact Bool.false_ne_true)]

/-- C7 witness: stderr containing `"SyntaxError"` is pre-classified. -/
theorem c7_run_python_classification_witness :
    run_python (fun _ _ => (1, [], strL "SyntaxError: x")) [] [] =
      .pre (strL "SYNTAX_ERROR") [] (strL "SyntaxError: x") :=
  (c7_run_python_classification (fun _ _ => (1, [], strL "SyntaxError: x")) [] []).1
    (by decide)

/-- C8 (confirmed): a recognised language and an existing problem whose
hidden-case list is absent or empty make `run_investigation` return
`SUCCESS` with no evidence — the result does not depend on the runner or
on `ndiff`, so no driver or container is consulted. -/
theorem c8_empty_cases (ndiff : List Str → List Str → List Str)
    (runners : Str → Option (Str → Str → RunnerResult))
    (runner : Str → Str → RunnerResult) (code language problem_id : Str)
    (problems_db : Str → Option Problem) (problem : Problem)
    (hrun : runners language = some runner)
    (hprob : problems_db problem_id = some problem)
    (hcases : problem.hidden_cases = none ∨ problem.hidden_cases = some []) :
    run_investigation ndiff runners code language problem_id problems_db =
      .ok ([phase1Log language, phase2Log 0,
        strL "🎉 Result: Passed all hidden test cases."], strL "SUCCESS", .none) := by
  rw [run_investigation, hrun, hprob]
  have hget : problem.hidden_cases.getD [] = [] := by
    rcases hcases with hc | hc <;> rw [hc] <;> rfl
  dsimp only
  rw [hget, investigateCases]
  rfl

/-- C8 witness: a problem with no `hidden_cases` key passes immediately. -/
theorem c8_empty_cases_witness :
    run_investigation (fun _ _ => []) (fun _ => some (fun _ _ => .raw 0 [] []))
      [] (strL "python") (strL "p1") (fun _ => some ⟨none⟩) =
      .ok ([phase1Log (strL "python"), phase2Log 0,
        strL "🎉 Result: Passed all hidden test cases."], strL "SUCCESS", .none) :=
  c8_empty_cases (fun _ _ => []) (fun _ => some (fun _ _ => .raw 0 [] []))
    (fun _ _ => .raw 0 [] []) [] (strL "python") (strL "p1")
    (fun _ => some ⟨none⟩) ⟨none⟩ rfl rfl (Or.inl rfl)

/-- C9 (confirmed): `GET /draft` answers with the field-wise defaults
`draft_code = None`, `attempts = 0`, `last_error = None` when no session
exists, and with each stored field (an absent `attempt` defaulting to 0)
when one does — never an error. -/
theorem c9_get_draft_defaults (sessions : Str → Option SessionRec)
    (user_id problem_id : Str) :
    (sessions (sessionKey user_id problem_id) = none →
      get_draft sessions user_id problem_id = ⟨none, 0, none⟩) ∧
    (∀ r, sessions (sessionKey user_id problem_id) = some r →
      get_draft sessions user_id problem_id =
        ⟨r.draft_code, r.attempt.getD 0, r.last_error⟩) := by
  constructor
  · intro h
    rw [get_draft, h]
    rfl
  · intro r h
    rw [get_draft, h]
    rfl

/-- C9 witness: an empty session store answers with the defaults. -/
theorem c9_get_draft_defaults_witness :
    get_draft (fun _ => none) [] [] = ⟨none, 0, none⟩ :=
  (c9_get_draft_defaults (fun _ => none) [] []).1 rfl

/-- C10 (confirmed): `/save` writes only `draft_code`: a fresh session gets
`attempt = 0` and `last_error = None`, an existing session keeps both
fields, and every other key of the store is untouched. -/
theorem c10_save_draft_frame (sessions : Str → Option SessionRec)
    (user_id problem_id code : Str) :
    (sessions (sessionKey user_id problem_id) = none →
      save_draft sessions user_id problem_id code (sessionKey user_id problem_id) =
        some ⟨some code, some 0, none⟩) ∧
    (∀ r, sessions (sessionKey user_id problem_id) = some r →
      save_draft sessions user_id problem_id code (sessionKey user_id problem_id) =
        some ⟨some code, r.attempt, r.last_error⟩) ∧
    (∀ k, k ≠ sessionKey user_id problem_id →
      save_draft sessions user_id problem_id code k = sessions k) := by
  refine ⟨?_, ?_, ?_⟩
  · intro h
    rw [save_draft]
    dsimp only
    rw [h, if_pos rfl]
    rfl
  · intro r h
    rw [save_draft]
    dsimp only
    rw [h, if_pos rfl]
    rfl
  · intro k hk
    rw [save_draft]
    dsimp only
    rw [if_neg hk]

/-- C10 witness: saving into an empty store creates the defaulted session
with only `draft_code` set. -/
theorem c10_save_draft_frame_witness :
    save_draft (fun _ => none) [] [] ['x'] (sessionKey [] []) =
      some ⟨some ['x'], some 0, none⟩ :=
  (c10_save_draft_frame (fun _ => none) [] [] ['x']).1 rfl

end LabTA
